import Mathlib

/-!
Verification of `crates/gpui3/src/text_system/line.rs`: the `Line` type,
its coordinate/index queries (`x_for_index`, `font_for_index`, `index_for_x`)
and its two paint algorithms (`Line::paint`, `Line::paint_wrapped`).

Pixel quantities (`Pixels`, an `f32` wrapper in the source) are modelled as
exact rationals; colors are modelled structurally; the external rendering
context (`WindowContext`) is modelled as an oracle supplying the
`bounding_box` metrics query and a per-draw-call failure oracle, and each
paint operation returns the final loop state (whose `trace` field records
every successfully emitted draw call, in order, and whose `queries` field
records every `bounding_box` query, in order) together with an optional
error, mirroring the `Result<()>` early-return (`?`) control flow of the
source.
-/

namespace Gpui

/-- `Pixels` (an `f32` wrapper in the source), modelled as an exact rational. -/
abbrev Pixels := ℚ

/-- A 2-d point, as in `Point<Pixels>`. -/
structure Point where
  x : ℚ
  y : ℚ
deriving DecidableEq, Repr

instance : Add Point := ⟨fun a b => ⟨a.x + b.x, a.y + b.y⟩⟩

theorem Point.add_def (a b : Point) : a + b = ⟨a.x + b.x, a.y + b.y⟩ := rfl

/-- A 2-d size, as in `Size<Pixels>`. -/
structure Size where
  width : ℚ
  height : ℚ
deriving DecidableEq, Repr

/-- Axis-aligned bounds, as in `Bounds<Pixels>`. -/
structure Bounds where
  origin : Point
  size : Size
deriving DecidableEq, Repr

/-- `Bounds::upper_right`. -/
def Bounds.upper_right (b : Bounds) : Point :=
  ⟨b.origin.x + b.size.width, b.origin.y⟩

/-- An HSLA color. Only construction, equality and the `black()` default
matter to `line.rs`. -/
structure Hsla where
  h : ℚ
  s : ℚ
  l : ℚ
  a : ℚ
deriving DecidableEq, Repr

/-- `black()`. -/
def black : Hsla := ⟨0, 0, 0, 1⟩

/-- `UnderlineStyle { color: Option<Hsla>, thickness: Pixels, wavy: bool }`. -/
structure UnderlineStyle where
  color : Option Hsla
  thickness : ℚ
  wavy : Bool
deriving DecidableEq, Repr

/-- A positioned glyph of a shaped run: byte `index` into the source text,
`position` relative to the line origin, font-specific glyph `id`, and the
`is_emoji` flag. -/
structure Glyph where
  id : ℕ
  position : Point
  index : ℕ
  is_emoji : Bool
deriving DecidableEq, Repr

/-- `ShapedRun { font_id, glyphs }`. Font identifiers are modelled as
naturals. -/
structure ShapedRun where
  font_id : ℕ
  glyphs : List Glyph
deriving DecidableEq, Repr

/-- `LineLayout`. The source stores the original `text: String` but uses it
only through `text.len()` / `text.is_empty()`, so the layout carries the byte
length `text_len` directly. -/
structure LineLayout where
  font_size : ℚ
  width : ℚ
  ascent : ℚ
  descent : ℚ
  runs : List ShapedRun
  text_len : ℕ
deriving DecidableEq, Repr

/-- `DecorationRun { len: u32, color: Hsla, underline: Option<UnderlineStyle> }`. -/
structure DecorationRun where
  len : ℕ
  color : Hsla
  underline : Option UnderlineStyle
deriving DecidableEq, Repr

/-- `ShapedBoundary { run_ix, glyph_ix }`, a wrap point consumed by
`paint_wrapped`. -/
structure ShapedBoundary where
  run_ix : ℕ
  glyph_ix : ℕ
deriving DecidableEq, Repr

/-- `Line`: a shared shaped layout plus its decoration runs. -/
structure Line where
  layout : LineLayout
  decoration_runs : List DecorationRun
deriving DecidableEq, Repr

/-- `Line::width`. -/
def Line.width (self : Line) : ℚ := self.layout.width

/-- `Line::font_size`. -/
def Line.font_size (self : Line) : ℚ := self.layout.font_size

/-- `Line::runs`. -/
def Line.runs (self : Line) : List ShapedRun := self.layout.runs

/-- `Line::len` (byte length of the underlying text). -/
def Line.len (self : Line) : ℕ := self.layout.text_len

/-- `Line::is_empty`. -/
def Line.is_empty (self : Line) : Bool := self.layout.text_len == 0

/-- Inner loop of `Line::x_for_index`: scan a run's glyphs in order and
return the position of the first glyph whose `index ≥ index`. -/
def xForIndexGlyphs (index : ℕ) : List Glyph → Option ℚ
  | [] => none
  | g :: gs => if g.index ≥ index then some g.position.x else xForIndexGlyphs index gs

/-- Outer loop of `Line::x_for_index` over the runs. -/
def xForIndexRuns (index : ℕ) : List ShapedRun → Option ℚ
  | [] => none
  | r :: rs =>
    match xForIndexGlyphs index r.glyphs with
    | some x => some x
    | none => xForIndexRuns index rs

/-- `Line::x_for_index`: x-position of the first glyph with byte index at
least `index`, or the layout width when no glyph qualifies. -/
def Line.x_for_index (self : Line) (index : ℕ) : ℚ :=
  (xForIndexRuns index self.layout.runs).getD self.layout.width

/-- Inner loop of `Line::font_for_index`. -/
def fontForIndexGlyphs (index : ℕ) (font_id : ℕ) : List Glyph → Option ℕ
  | [] => none
  | g :: gs => if g.index ≥ index then some font_id else fontForIndexGlyphs index font_id gs

/-- Outer loop of `Line::font_for_index`. -/
def fontForIndexRuns (index : ℕ) : List ShapedRun → Option ℕ
  | [] => none
  | r :: rs =>
    match fontForIndexGlyphs index r.font_id r.glyphs with
    | some f => some f
    | none => fontForIndexRuns index rs

/-- `Line::font_for_index`. -/
def Line.font_for_index (self : Line) (index : ℕ) : Option ℕ :=
  fontForIndexRuns index self.layout.runs

/-- Inner loop of `Line::index_for_x`: the source iterates
`run.glyphs.iter().rev()`, so the tail (the later glyphs) is consulted
first and the head only when no later glyph has position ≤ `x`. -/
def indexForXGlyphs (x : ℚ) : List Glyph → Option ℕ
  | [] => none
  | g :: gs =>
    match indexForXGlyphs x gs with
    | some i => some i
    | none => if g.position.x ≤ x then some g.index else none

/-- Outer loop of `Line::index_for_x` over `runs.iter().rev()`: later runs
are consulted first. -/
def indexForXRuns (x : ℚ) : List ShapedRun → Option ℕ
  | [] => none
  | r :: rs =>
    match indexForXRuns x rs with
    | some i => some i
    | none => indexForXGlyphs x r.glyphs

/-- `Line::index_for_x`: `none` when `x ≥ width`; otherwise the byte index
of the first glyph, in reverse scan order, whose position is ≤ `x`, and `0`
when no glyph qualifies. -/
def Line.index_for_x (self : Line) (x : ℚ) : Option ℕ :=
  if x ≥ self.layout.width then none
  else
    match indexForXRuns x self.layout.runs with
    | some i => some i
    | none => some 0

/-- A draw primitive emitted on the external rendering context:
`paint_underline`, `paint_glyph` or `paint_emoji`. -/
inductive DrawCall where
  | underline (origin : Point) (length : ℚ) (style : UnderlineStyle)
  | glyph (origin : Point) (font_id : ℕ) (id : ℕ) (font_size : ℚ) (color : Hsla)
  | emoji (origin : Point) (font_id : ℕ) (id : ℕ) (font_size : ℚ)
deriving DecidableEq, Repr

/-- Whether a draw call is a `paint_underline` call. -/
def DrawCall.isUnderline : DrawCall → Bool
  | .underline _ _ _ => true
  | _ => false

/-- The external rendering context, modelled as an oracle: `bounding_box`
answers the font-metrics query (possibly with an error), and `draw_err`
decides, for each draw primitive, whether the renderer rejects it
(`some e`) or accepts it (`none`). Errors are modelled as naturals. -/
structure WindowContext where
  bounding_box : ℕ → ℚ → Except ℕ Size
  draw_err : DrawCall → Option ℕ

/-- A context whose metrics queries and draw primitives never fail. -/
def WindowContext.ok (cx : WindowContext) : Prop :=
  (∀ c, cx.draw_err c = none) ∧ ∀ f s, ∃ sz, cx.bounding_box f s = Except.ok sz

/-- Loop state of `Line::paint`: the remaining decoration runs
(`style_runs` cursor), the byte offset `run_end` at which the current
decoration run ends, the current fill `color`, the active underline
accumulator, plus the observation trace (`queries`: fonts passed to
`bounding_box`, in order; `trace`: successfully emitted draw calls, in
order). -/
structure PaintState where
  style_runs : List DecorationRun
  run_end : ℕ
  color : Hsla
  current_underline : Option (Point × UnderlineStyle)
  queries : List ℕ
  trace : List DrawCall
deriving DecidableEq, Repr

/-- Attempt one draw primitive: if the context rejects it the error is
returned and nothing is recorded, otherwise the call is appended to the
trace. -/
def emit (cx : WindowContext) (st : PaintState) (c : DrawCall) : PaintState × Option ℕ :=
  match cx.draw_err c with
  | some e => (st, some e)
  | none => ({ st with trace := st.trace ++ [c] }, none)

/-- Decoration-run bookkeeping performed for one glyph of `Line::paint`:
when the glyph's byte index has reached `run_end`, pull the next decoration
run (flushing the active underline into the returned `finished` slot when
the new run's stored underline differs from the active resolved style, and
starting an underline via `get_or_insert` when the new run has one), or,
when the decoration runs are exhausted, extend `run_end` to the text length
and flush any active underline. Returns the updated state and the finished
underline, if any. -/
def updateDecoration (self : Line) (origin : Point) (baseline_offset : Point)
    (glyph_origin : Point) (glyph_index : ℕ) (st : PaintState) :
    PaintState × Option (Point × UnderlineStyle) :=
  if glyph_index ≥ st.run_end then
    match st.style_runs with
    | style_run :: rest =>
      let fc : Option (Point × UnderlineStyle) × Option (Point × UnderlineStyle) :=
        match st.current_underline with
        | some pu => if style_run.underline ≠ some pu.2 then (some pu, none) else (none, some pu)
        | none => (none, none)
      let cur : Option (Point × UnderlineStyle) :=
        match style_run.underline with
        | some ru =>
          match fc.2 with
          | some pu => some pu
          | none =>
            some (⟨glyph_origin.x,
                   origin.y + baseline_offset.y + self.layout.descent * (618 / 1000)⟩,
                  ⟨some (ru.color.getD style_run.color), ru.thickness, ru.wavy⟩)
        | none => fc.2
      ({ st with
          style_runs := rest
          run_end := st.run_end + style_run.len
          color := style_run.color
          current_underline := cur }, fc.1)
    | [] =>
      ({ st with run_end := self.layout.text_len, current_underline := none },
       st.current_underline)
  else (st, none)

/-- Glyph loop of `Line::paint` for one shaped run: break when the glyph
origin passes the visible window's right edge; otherwise run the decoration
bookkeeping, skip the draw calls (dropping any finished underline) when the
glyph is still left of the visible window, and otherwise draw the finished
underline (if any) and then the glyph or emoji, aborting on the first
error. -/
def paintGlyphs (self : Line) (cx : WindowContext) (origin : Point)
    (baseline_offset : Point) (visible_bounds : Bounds) (font_id : ℕ)
    (max_glyph_width : ℚ) (st : PaintState) : List Glyph → PaintState × Option ℕ
  | [] => (st, none)
  | g :: gs =>
    let glyph_origin := origin + baseline_offset + g.position
    if glyph_origin.x > visible_bounds.upper_right.x then (st, none)
    else
      let ud := updateDecoration self origin baseline_offset glyph_origin g.index st
      if glyph_origin.x + max_glyph_width < visible_bounds.origin.x then
        paintGlyphs self cx origin baseline_offset visible_bounds font_id max_glyph_width ud.1 gs
      else
        let s1 :=
          match ud.2 with
          | some pu => emit cx ud.1 (.underline pu.1 (glyph_origin.x - pu.1.x) pu.2)
          | none => (ud.1, none)
        match s1.2 with
        | some e => (s1.1, some e)
        | none =>
          let s2 :=
            if g.is_emoji then
              emit cx s1.1 (.emoji glyph_origin font_id g.id self.layout.font_size)
            else
              emit cx s1.1 (.glyph glyph_origin font_id g.id self.layout.font_size s1.1.color)
          match s2.2 with
          | some e => (s2.1, some e)
          | none =>
            paintGlyphs self cx origin baseline_offset visible_bounds font_id max_glyph_width
              s2.1 gs

/-- Run loop of `Line::paint`: query `bounding_box` for the run's font
(recording the query, aborting on a metrics error), then process the run's
glyphs. -/
def paintRuns (self : Line) (cx : WindowContext) (origin : Point)
    (baseline_offset : Point) (visible_bounds : Bounds) (st : PaintState) :
    List ShapedRun → PaintState × Option ℕ
  | [] => (st, none)
  | r :: rs =>
    let st0 := { st with queries := st.queries ++ [r.font_id] }
    match cx.bounding_box r.font_id self.layout.font_size with
    | .error e => (st0, some e)
    | .ok sz =>
      match paintGlyphs self cx origin baseline_offset visible_bounds r.font_id sz.width
          st0 r.glyphs with
      | (st1, some e) => (st1, some e)
      | (st1, none) => paintRuns self cx origin baseline_offset visible_bounds st1 rs

/-- `Line::paint`: single-row paint. Returns the final loop state (with the
observation trace) and the error, if the paint aborted. -/
def Line.paint (self : Line) (bounds : Bounds) (visible_bounds : Bounds)
    (line_height : ℚ) (cx : WindowContext) : PaintState × Option ℕ :=
  let origin := bounds.origin
  let padding_top := (line_height - self.layout.ascent - self.layout.descent) / 2
  let baseline_offset : Point := ⟨0, padding_top + self.layout.ascent⟩
  let st0 : PaintState :=
    { style_runs := self.decoration_runs, run_end := 0, color := black,
      current_underline := none, queries := [], trace := [] }
  match paintRuns self cx origin baseline_offset visible_bounds st0 self.layout.runs with
  | (st, some e) => (st, some e)
  | (st, none) =>
    match st.current_underline with
    | some pu =>
      let line_end_x := origin.x + self.layout.width
      emit cx { st with current_underline := none }
        (.underline pu.1 (line_end_x - pu.1.x) pu.2)
    | none => (st, none)

/-- Loop state of `Line::paint_wrapped`: the remaining wrap boundaries
(peekable cursor), the remaining decoration runs, the decoration byte
boundary `style_run_end`, the current fill color (updated but never used
for drawing in this path), the active underline accumulator, the running
draw origin, the previous glyph's x-position, plus the observation trace
(as for `PaintState`). -/
structure WrappedState where
  boundaries : List ShapedBoundary
  color_runs : List DecorationRun
  style_run_end : ℕ
  color : Hsla
  current_underline : Option (Point × UnderlineStyle)
  glyph_origin : Point
  prev_position : ℚ
  queries : List ℕ
  trace : List DrawCall
deriving DecidableEq, Repr

/-- Attempt one draw primitive in the wrapped paint (see `emit`). -/
def emitW (cx : WindowContext) (st : WrappedState) (c : DrawCall) :
    WrappedState × Option ℕ :=
  match cx.draw_err c with
  | some e => (st, some e)
  | none => ({ st with trace := st.trace ++ [c] }, none)

/-- Wrap-boundary handling for one glyph of `Line::paint_wrapped`: when the
next pending boundary matches this glyph's `(run_ix, glyph_ix)` coordinate,
consume it, flush any active underline at the current draw-origin x
(aborting on a draw error, in which case the origin reset does not happen),
and reset the draw origin to the destination's left edge one `line_height`
further down. -/
def handleBoundary (cx : WindowContext) (origin : Point) (line_height : ℚ)
    (run_ix glyph_ix : ℕ) (st : WrappedState) : WrappedState × Option ℕ :=
  match st.boundaries with
  | b :: bs =>
    if b.run_ix = run_ix ∧ b.glyph_ix = glyph_ix then
      let st1 := { st with boundaries := bs }
      match st1.current_underline with
      | some pu =>
        let s2 := emitW cx { st1 with current_underline := none }
          (.underline pu.1 (st1.glyph_origin.x - pu.1.x) pu.2)
        match s2.2 with
        | some e => (s2.1, some e)
        | none =>
          ({ s2.1 with glyph_origin := ⟨origin.x, s2.1.glyph_origin.y + line_height⟩ }, none)
      | none =>
        ({ st1 with glyph_origin := ⟨origin.x, st1.glyph_origin.y + line_height⟩ }, none)
    else (st, none)
  | [] => (st, none)

/-- Decoration-run bookkeeping for one glyph of `Line::paint_wrapped`.
Identical in structure to `updateDecoration` except that the underline
anchor is expressed relative to the current (row-local) draw origin, and
the exhausted branch additionally resets the fill color to `black`. -/
def updateDecorationWrapped (self : Line) (baseline_offset : Point)
    (glyph_origin : Point) (glyph_index : ℕ) (st : WrappedState) :
    WrappedState × Option (Point × UnderlineStyle) :=
  if glyph_index ≥ st.style_run_end then
    match st.color_runs with
    | style_run :: rest =>
      let fc : Option (Point × UnderlineStyle) × Option (Point × UnderlineStyle) :=
        match st.current_underline with
        | some pu => if style_run.underline ≠ some pu.2 then (some pu, none) else (none, some pu)
        | none => (none, none)
      let cur : Option (Point × UnderlineStyle) :=
        match style_run.underline with
        | some ru =>
          match fc.2 with
          | some pu => some pu
          | none =>
            some (glyph_origin +
                    ⟨0, baseline_offset.y + self.layout.descent * (618 / 1000)⟩,
                  ⟨some (ru.color.getD style_run.color), ru.thickness, ru.wavy⟩)
        | none => fc.2
      ({ st with
          color_runs := rest
          style_run_end := st.style_run_end + style_run.len
          color := style_run.color
          current_underline := cur }, fc.1)
    | [] =>
      ({ st with
          style_run_end := self.layout.text_len
          color := black
          current_underline := none },
       st.current_underline)
  else (st, none)

/-- Body of the glyph loop of `Line::paint_wrapped` for one glyph: advance
the draw origin by the glyph's position delta, handle a matching wrap
boundary, record the previous position, run the decoration bookkeeping,
draw any finished underline, and query `bounding_box` for the glyph's
prospective bounds (the glyph/emoji draw dispatch is absent in this path),
aborting on the first error. -/
def wrappedDecoStep (self : Line) (cx : WindowContext) (baseline_offset : Point)
    (font_id : ℕ) (st : WrappedState) (g : Glyph) : WrappedState × Option ℕ :=
  let stC := { st with prev_position := g.position.x }
  let ud := updateDecorationWrapped self baseline_offset stC.glyph_origin g.index stC
  let sD :=
    match ud.2 with
    | some pu => emitW cx ud.1 (.underline pu.1 (ud.1.glyph_origin.x - pu.1.x) pu.2)
    | none => (ud.1, none)
  match sD.2 with
  | some e => (sD.1, some e)
  | none =>
    let stE := { sD.1 with queries := sD.1.queries ++ [font_id] }
    match cx.bounding_box font_id self.layout.font_size with
    | .error e => (stE, some e)
    | .ok _ => (stE, none)

/-- One wrapped glyph step splits into the draw-origin advance, the wrap
boundary handling, and (when the boundary flush did not fail) the
decoration/metrics part `wrappedDecoStep`. -/
def wrappedGlyphStep (self : Line) (cx : WindowContext) (origin : Point)
    (baseline_offset : Point) (line_height : ℚ) (run_ix : ℕ) (font_id : ℕ)
    (glyph_ix : ℕ) (st : WrappedState) (g : Glyph) : WrappedState × Option ℕ :=
  let stA := { st with glyph_origin :=
    ⟨st.glyph_origin.x + g.position.x - st.prev_position, st.glyph_origin.y⟩ }
  let sB := handleBoundary cx origin line_height run_ix glyph_ix stA
  match sB.2 with
  | some e => (sB.1, some e)
  | none => wrappedDecoStep self cx baseline_offset font_id sB.1 g

/-- Glyph loop of `Line::paint_wrapped` for one shaped run (`glyph_ix` is
the index of the head of the glyph list within the run): perform
`wrappedGlyphStep` for each glyph in turn, aborting on the first error. -/
def paintWrappedGlyphs (self : Line) (cx : WindowContext) (origin : Point)
    (baseline_offset : Point) (line_height : ℚ) (run_ix : ℕ) (font_id : ℕ) :
    (glyph_ix : ℕ) → WrappedState → List Glyph → WrappedState × Option ℕ
  | _, st, [] => (st, none)
  | glyph_ix, st, g :: gs =>
    match wrappedGlyphStep self cx origin baseline_offset line_height run_ix font_id
        glyph_ix st g with
    | (st1, some e) => (st1, some e)
    | (st1, none) =>
      paintWrappedGlyphs self cx origin baseline_offset line_height run_ix font_id
        (glyph_ix + 1) st1 gs

/-- Run loop of `Line::paint_wrapped` (`run_ix` is the index of the head of
the run list within the layout). -/
def paintWrappedRuns (self : Line) (cx : WindowContext) (origin : Point)
    (baseline_offset : Point) (line_height : ℚ) :
    (run_ix : ℕ) → WrappedState → List ShapedRun → WrappedState × Option ℕ
  | _, st, [] => (st, none)
  | run_ix, st, r :: rs =>
    match paintWrappedGlyphs self cx origin baseline_offset line_height run_ix r.font_id
        0 st r.glyphs with
    | (st1, some e) => (st1, some e)
    | (st1, none) =>
      paintWrappedRuns self cx origin baseline_offset line_height (run_ix + 1) st1 rs

/-- `Line::paint_wrapped`: multi-row paint. Returns the final loop state
(with the observation trace) and the error, if the paint aborted. The
visible bounds argument is unused in the source (clipping is a `todo!`). -/
def Line.paint_wrapped (self : Line) (origin : Point) (_visible_bounds : Bounds)
    (line_height : ℚ) (boundaries : List ShapedBoundary) (cx : WindowContext) :
    WrappedState × Option ℕ :=
  let padding_top := (line_height - self.layout.ascent - self.layout.descent) / 2
  let baseline_offset : Point := ⟨0, padding_top + self.layout.ascent⟩
  let st0 : WrappedState :=
    { boundaries := boundaries, color_runs := self.decoration_runs, style_run_end := 0,
      color := black, current_underline := none, glyph_origin := origin,
      prev_position := 0, queries := [], trace := [] }
  match paintWrappedRuns self cx origin baseline_offset line_height 0 st0 self.layout.runs with
  | (st, some e) => (st, some e)
  | (st, none) =>
    match st.current_underline with
    | some pu =>
      let line_end_x := st.glyph_origin.x + self.layout.width - st.prev_position
      emitW cx { st with current_underline := none }
        (.underline pu.1 (line_end_x - pu.1.x) pu.2)
    | none => (st, none)

/-- All glyphs of a line's layout, in run order and glyph order. -/
def flatGlyphs (self : Line) : List Glyph :=
  (self.layout.runs.map ShapedRun.glyphs).flatten

/-- The spec's description of `index_for_x`: none when `x ≥ width`,
otherwise the byte index of the first glyph found scanning runs and glyphs
in reverse order whose position is ≤ `x`, and byte index 0 when no glyph
qualifies. Stated over the flattened glyph sequence. -/
def index_for_x_spec (self : Line) (x : ℚ) : Option ℕ :=
  if self.layout.width ≤ x then none
  else
    some (((((flatGlyphs self).reverse.find? fun g => decide (g.position.x ≤ x)).map
      Glyph.index)).getD 0)

/-- A rendering context whose metrics queries always answer a 5×10 bounding
box and whose draw primitives always succeed. -/
def okCtx : WindowContext := ⟨fun _ _ => .ok ⟨5, 10⟩, fun _ => none⟩

/-- A rendering context whose metrics queries always fail with error 5 and
whose draw primitives always succeed. -/
def badCtx : WindowContext := ⟨fun _ _ => .error 5, fun _ => none⟩

/-- A red color. -/
def red : Hsla := ⟨0, 1, 1/2, 1⟩

/-- A blue color. -/
def blue : Hsla := ⟨2/3, 1, 1/2, 1⟩

/-- First example glyph: byte index 0 at x = 0. -/
def gA : Glyph := ⟨0, ⟨0, 0⟩, 0, false⟩

/-- Second example glyph: byte index 1 at x = 1. -/
def gB : Glyph := ⟨1, ⟨1, 0⟩, 1, false⟩

/-- A two-glyph, one-run layout for a two-byte text: width 2, ascent 8,
descent 2, font size 10, font id 7. -/
def layout2 : LineLayout := ⟨10, 2, 8, 2, [⟨7, [gA, gB]⟩], 2⟩

/-- Generous bounds placed at the window origin. -/
def bigB : Bounds := ⟨⟨0, 0⟩, ⟨100, 100⟩⟩

/-- A plain black two-glyph line over `layout2`. -/
def lineAB : Line := ⟨layout2, [⟨2, black, none⟩]⟩

/-- A non-empty line (text length 2, width 1) whose only glyph sits at
position 0 with byte index 1 — e.g. the shaping of a text whose first byte
produces no glyph of its own. -/
def C3cexLine : Line := ⟨⟨10, 1, 8, 2, [⟨3, [⟨0, ⟨0, 0⟩, 1, false⟩]⟩], 2⟩, [⟨2, black, none⟩]⟩

/-- A line whose first byte is underlined and whose second byte is not, so
the underline span started at the first glyph finishes at the second
glyph. -/
def C10cexLine : Line := ⟨layout2, [⟨1, red, some ⟨none, 1, false⟩⟩, ⟨1, blue, none⟩]⟩

/-- A visible window lying entirely to the right of `layout2`'s glyphs, so
every glyph fails the left-edge cull check. -/
def rightWindow : Bounds := ⟨⟨50, 0⟩, ⟨10, 10⟩⟩

/-- An initial paint state holding one red decoration run with an
underline whose own color is unset. -/
def C7st : PaintState :=
  ⟨[⟨1, red, some ⟨none, 1, false⟩⟩], 0, black, none, [], []⟩

/-- Two adjacent decoration runs with the same fill color and the same
underline style whose own color is unset: their resolved underline styles
are identical (both fall back to red). -/
def C1cexLine : Line :=
  ⟨layout2, [⟨1, red, some ⟨none, 1, false⟩⟩, ⟨1, red, some ⟨none, 1, false⟩⟩]⟩

/-- A line whose decoration runs cover only the first of its two glyph
byte indices (text length 1, glyph byte indices 0 and 1), so the second
glyph is reached with the decoration sequence exhausted. -/
def C6cexLine : Line := ⟨⟨10, 2, 8, 2, [⟨7, [gA, gB]⟩], 1⟩, [⟨1, red, none⟩]⟩

/-- A degenerate visible window whose right edge lies left of every glyph
of `layout2`. -/
def narrowVB : Bounds := ⟨⟨0, 0⟩, ⟨-1, 0⟩⟩

/-- A line fully covered by one red decoration run with an underline whose
own color is unset (the spec's Scenario B shape). -/
def lineScB : Line := ⟨layout2, [⟨2, red, some ⟨none, 1, false⟩⟩]⟩

/-! ## Query characterizations -/

theorem indexForXGlyphs_eq (x : ℚ) (gs : List Glyph) :
    indexForXGlyphs x gs =
      (gs.reverse.find? fun g => decide (g.position.x ≤ x)).map Glyph.index := by
  induction gs with
  | nil => rfl
  | cons g gs ih =>
    rw [indexForXGlyphs, ih, List.reverse_cons, List.find?_append]
    cases h : gs.reverse.find? fun g => decide (g.position.x ≤ x) with
    | none =>
      by_cases hgx : g.position.x ≤ x <;> simp [List.find?_cons, hgx, Option.or]
    | some g' => simp [Option.or]

theorem indexForXRuns_eq (x : ℚ) (rs : List ShapedRun) :
    indexForXRuns x rs =
      (((rs.map ShapedRun.glyphs).flatten.reverse.find? fun g =>
        decide (g.position.x ≤ x)).map Glyph.index) := by
  induction rs with
  | nil => rfl
  | cons r rs ih =>
    rw [indexForXRuns, ih, indexForXGlyphs_eq, List.map_cons, List.flatten_cons,
      List.reverse_append, List.find?_append]
    cases h : (rs.map ShapedRun.glyphs).flatten.reverse.find? fun g =>
        decide (g.position.x ≤ x) <;>
      simp [Option.or]

theorem index_for_x_eq_spec (self : Line) (x : ℚ) :
    self.index_for_x x = index_for_x_spec self x := by
  rw [Line.index_for_x, index_for_x_spec]
  by_cases hw : self.layout.width ≤ x
  · rw [if_pos (by exact hw), if_pos hw]
  · rw [if_neg (by exact hw), if_neg hw, indexForXRuns_eq, flatGlyphs]
    cases (((self.layout.runs.map ShapedRun.glyphs).flatten.reverse.find? fun g =>
        decide (g.position.x ≤ x)).map Glyph.index) <;> rfl

theorem xForIndexGlyphs_eq (i : ℕ) (gs : List Glyph) :
    xForIndexGlyphs i gs =
      (gs.find? fun g => decide (i ≤ g.index)).map fun g => g.position.x := by
  induction gs with
  | nil => rfl
  | cons g gs ih =>
    rw [xForIndexGlyphs, List.find?_cons]
    by_cases hi : i ≤ g.index
    · rw [if_pos hi]
      simp [hi]
    · rw [if_neg hi]
      simp [hi, ih]

theorem xForIndexRuns_eq (i : ℕ) (rs : List ShapedRun) :
    xForIndexRuns i rs =
      ((rs.map ShapedRun.glyphs).flatten.find? fun g => decide (i ≤ g.index)).map
        fun g => g.position.x := by
  induction rs with
  | nil => rfl
  | cons r rs ih =>
    rw [xForIndexRuns, xForIndexGlyphs_eq, List.map_cons, List.flatten_cons,
      List.find?_append]
    cases h : r.glyphs.find? fun g => decide (i ≤ g.index) <;> simp [Option.or, ih, h]

theorem x_for_index_flat (self : Line) (i : ℕ) :
    self.x_for_index i =
      (((flatGlyphs self).find? fun g => decide (i ≤ g.index)).map
        fun g => g.position.x).getD self.layout.width := by
  rw [Line.x_for_index, xForIndexRuns_eq, flatGlyphs]

/-! ## Claims C3 and C4: the coordinate/index queries -/

/-- Claim C3, counterexample: on the non-empty line `C3cexLine` (its only
glyph has position 0 but byte index 1), `index_for_x 0` returns byte index
1, not 0, refuting "on any non-empty line, index_for_x(0) is 0". -/
theorem C3_counterexample :
    C3cexLine.is_empty = false ∧ C3cexLine.index_for_x 0 = some 1 ∧
      (some 1 : Option ℕ) ≠ some 0 := by
  decide

/-- Claim C3 (amended): `index_for_x` returns none for every `x ≥ width`;
for `x < width` it returns the byte index of the first glyph found scanning
runs and glyphs in reverse order whose position is ≤ `x`, and byte index 0
when no glyph qualifies; on any non-empty line `index_for_x(width)` is
none; and `index_for_x(0)` is 0 whenever the width is positive and every
glyph at position ≤ 0 has byte index 0. The query is total, hence never
fails. -/
theorem C3_index_for_x_boundaries (self : Line) (x : ℚ) :
    self.index_for_x x = index_for_x_spec self x ∧
    (self.layout.width ≤ x → self.index_for_x x = none) ∧
    (self.is_empty = false → self.index_for_x self.layout.width = none) ∧
    (0 < self.layout.width →
      (∀ g ∈ flatGlyphs self, g.position.x ≤ 0 → g.index = 0) →
      self.index_for_x 0 = some 0) := by
  refine ⟨index_for_x_eq_spec self x, ?_, ?_, ?_⟩
  · intro h
    rw [Line.index_for_x, if_pos h]
  · intro _
    rw [Line.index_for_x, if_pos (le_refl _)]
  · intro hw hall
    rw [index_for_x_eq_spec, index_for_x_spec, if_neg (not_le.mpr hw)]
    cases hf : (flatGlyphs self).reverse.find? fun g => decide (g.position.x ≤ 0) with
    | none => rfl
    | some g =>
      have hp := List.find?_some hf
      have hm : g ∈ flatGlyphs self :=
        List.mem_reverse.mp (List.mem_of_find?_eq_some hf)
      have hz : g.index = 0 := hall g hm (of_decide_eq_true hp)
      simp [hf, hz]

/-- Witness for C3: the boundary facts evaluated on the concrete line
`lineAB` at `x = 0`. -/
theorem C3_index_for_x_boundaries_witness :
    lineAB.index_for_x lineAB.layout.width = none ∧ lineAB.index_for_x 0 = some 0 := by
  refine ⟨(C3_index_for_x_boundaries lineAB 0).2.2.1 (by decide),
    (C3_index_for_x_boundaries lineAB 0).2.2.2 (by decide) ?_⟩
  decide

/-- The `getD`-of-`find?` value of `x_for_index` is monotone in the queried
index, over any glyph list whose positions are sorted and bounded by the
fallback width. -/
theorem find_lower_getD_mono (w : ℚ) {i j : ℕ} (hij : i ≤ j) :
    ∀ l : List Glyph, l.Pairwise (fun a b => a.position.x ≤ b.position.x) →
      (∀ g ∈ l, g.position.x ≤ w) →
      ((l.find? fun g => decide (i ≤ g.index)).map (fun g => g.position.x)).getD w ≤
        ((l.find? fun g => decide (j ≤ g.index)).map (fun g => g.position.x)).getD w
  | [], _, _ => le_refl w
  | g :: l, hp, hb => by
    rw [List.find?_cons, List.find?_cons]
    by_cases hj : j ≤ g.index
    · have hi : i ≤ g.index := hij.trans hj
      simp [hi, hj]
    · by_cases hi : i ≤ g.index
      · simp only [decide_eq_true hi, (decide_eq_false hj : decide (j ≤ g.index) = false)]
        cases hf : l.find? fun g => decide (j ≤ g.index) with
        | none => simpa [hf] using hb g (by simp)
        | some g' =>
          have hm : g' ∈ l := List.mem_of_find?_eq_some hf
          simpa [hf] using (List.pairwise_cons.mp hp).1 g' hm
      · have ih := find_lower_getD_mono w hij l (List.pairwise_cons.mp hp).2
          (fun g' hg' => hb g' (List.mem_cons_of_mem _ hg'))
        simpa [hi, hj] using ih

/-- Claim C4: for a shaped layout (glyph positions non-decreasing in
run/glyph order and bounded by the layout width), `x_for_index` is
monotonically non-decreasing in the queried byte index, with indices past
every glyph resolving to the line's total width. -/
theorem C4_x_for_index_mono (self : Line) (i j : ℕ)
    (hsort : (flatGlyphs self).Pairwise fun a b => a.position.x ≤ b.position.x)
    (hw : ∀ g ∈ flatGlyphs self, g.position.x ≤ self.layout.width)
    (hij : i ≤ j) : self.x_for_index i ≤ self.x_for_index j := by
  rw [x_for_index_flat, x_for_index_flat]
  exact find_lower_getD_mono _ hij _ hsort hw

/-- Witness for C4 on the concrete line `lineAB` at indices 0 ≤ 2. -/
theorem C4_x_for_index_mono_witness : lineAB.x_for_index 0 ≤ lineAB.x_for_index 2 :=
  C4_x_for_index_mono lineAB 0 2 (by decide) (by decide) (by decide)

/-! ## Facts about the single-row decoration bookkeeping -/

/-- The decoration bookkeeping of `Line::paint` emits nothing: it leaves
the draw trace and the query log untouched. -/
theorem updateDecoration_pres (self : Line) (origin baseline_offset glyph_origin : Point)
    (gi : ℕ) (st : PaintState) :
    (updateDecoration self origin baseline_offset glyph_origin gi st).1.trace = st.trace ∧
      (updateDecoration self origin baseline_offset glyph_origin gi st).1.queries =
        st.queries := by
  unfold updateDecoration
  by_cases h : gi ≥ st.run_end
  · rw [if_pos h]
    rcases hsr : st.style_runs with _ | ⟨sr, rest⟩ <;> simp
  · rw [if_neg h]
    exact ⟨rfl, rfl⟩

/-- Claim C7: when a decoration run specifying an underline is entered
while no underline is active, the single-row bookkeeping starts an active
underline anchored at the glyph's x and at the row origin's y plus the
baseline offset plus descent × 0.618, with the underline color falling
back to the decoration run's fill color when unset and the thickness and
wavy flag preserved. -/
theorem C7_underline_start (self : Line) (origin baseline_offset glyph_origin : Point)
    (st : PaintState) (sr : DecorationRun) (rest : List DecorationRun)
    (u : UnderlineStyle) (gi : ℕ) (hrun : st.style_runs = sr :: rest)
    (hcur : st.current_underline = none) (hge : gi ≥ st.run_end)
    (hu : sr.underline = some u) :
    (updateDecoration self origin baseline_offset glyph_origin gi st).1.current_underline =
      some (⟨glyph_origin.x,
             origin.y + baseline_offset.y + self.layout.descent * (618 / 1000)⟩,
            ⟨some (u.color.getD sr.color), u.thickness, u.wavy⟩) := by
  unfold updateDecoration
  rw [if_pos hge, hrun]
  simp [hcur, hu]

/-- Witness for C7 at a concrete state: the red run's underline (own color
unset) becomes active at ⟨3, 9 + 2 × 0.618⟩ resolved to red. -/
theorem C7_underline_start_witness :
    (updateDecoration lineAB ⟨0, 0⟩ ⟨0, 9⟩ ⟨3, 9⟩ 0 C7st).1.current_underline =
      some (⟨3, 2559 / 250⟩, ⟨some red, 1, false⟩) := by
  have h := C7_underline_start lineAB ⟨0, 0⟩ ⟨0, 9⟩ ⟨3, 9⟩ C7st
    ⟨1, red, some ⟨none, 1, false⟩⟩ [] ⟨none, 1, false⟩ 0 rfl rfl (by decide) rfl
  rw [h]
  norm_num [lineAB, layout2, red]

/-- Claim C10: when the glyph whose bookkeeping finishes an underline span
is itself culled by the left-edge check, the step recurses directly on the
bookkept state — the finished underline is dropped without a
`paint_underline` call (and the bookkeeping itself emits nothing).
Concretely, on `C10cexLine` under `rightWindow` the finished red span is
never drawn, although the same line under a covering window draws it. -/
theorem C10_culled_finished_underline_dropped (self : Line) (cx : WindowContext)
    (origin baseline_offset : Point) (visible_bounds : Bounds) (font_id : ℕ)
    (maxw : ℚ) (st : PaintState) (g : Glyph) (gs : List Glyph)
    (hnb : ¬ (origin + baseline_offset + g.position).x > visible_bounds.upper_right.x)
    (hcull : (origin + baseline_offset + g.position).x + maxw < visible_bounds.origin.x) :
    paintGlyphs self cx origin baseline_offset visible_bounds font_id maxw st (g :: gs) =
      paintGlyphs self cx origin baseline_offset visible_bounds font_id maxw
        (updateDecoration self origin baseline_offset (origin + baseline_offset + g.position)
          g.index st).1 gs ∧
    (updateDecoration self origin baseline_offset (origin + baseline_offset + g.position)
      g.index st).1.trace = st.trace ∧
    (C10cexLine.paint bigB rightWindow 12 okCtx).1.trace.countP DrawCall.isUnderline = 0 ∧
    (C10cexLine.paint bigB bigB 12 okCtx).1.trace.countP DrawCall.isUnderline = 1 := by
  refine ⟨?_, (updateDecoration_pres self origin baseline_offset _ g.index st).1, ?_, ?_⟩
  · simp only [paintGlyphs]
    rw [if_neg hnb, if_pos hcull]
  · norm_num [Line.paint, paintRuns, paintGlyphs, updateDecoration, emit, okCtx,
      C10cexLine, layout2, gA, gB, red, blue, black, bigB, rightWindow,
      Bounds.upper_right, Point.add_def, DrawCall.isUnderline]
    simp [DrawCall.isUnderline]
  · norm_num [Line.paint, paintRuns, paintGlyphs, updateDecoration, emit, okCtx,
      C10cexLine, layout2, gA, gB, red, blue, black, bigB,
      Bounds.upper_right, Point.add_def, DrawCall.isUnderline,
      List.countP_cons, List.countP_nil]
    simp [DrawCall.isUnderline, List.countP_cons, List.countP_nil]

/-- Witness for C10: the culled-step equation evaluated at a concrete
state and glyph. -/
theorem C10_culled_finished_underline_dropped_witness :
    paintGlyphs C10cexLine okCtx ⟨0, 0⟩ ⟨0, 9⟩ rightWindow 7 5 C7st [gA] =
      (⟨[], 1, red, some (⟨0, 2559 / 250⟩, ⟨some red, 1, false⟩), [], []⟩, none) := by
  have h := C10_culled_finished_underline_dropped C10cexLine okCtx ⟨0, 0⟩ ⟨0, 9⟩
    rightWindow 7 5 C7st gA []
    (by norm_num [Point.add_def, gA, rightWindow, Bounds.upper_right])
    (by norm_num [Point.add_def, gA, rightWindow])
  rw [h.1]
  norm_num [paintGlyphs, updateDecoration, C7st, C10cexLine, layout2, gA, red,
    Point.add_def]

/-! ## Claim C1: underline-span merging in the single-row paint -/

/-- Claim C1, counterexample: on `C1cexLine` the two adjacent decoration
runs have identical resolved underline styles (color unset falling back to
the same red fill, same thickness, same wavy flag), yet the single-row
paint emits two `paint_underline` calls, not one: the merge comparison
tests the stored (unresolved) style against the active resolved style. -/
theorem C1_counterexample :
    (C1cexLine.paint bigB bigB 12 okCtx).1.trace.countP DrawCall.isUnderline = 2 ∧
      (2 : ℕ) ≠ 1 := by
  refine ⟨?_, by decide⟩
  norm_num [Line.paint, paintRuns, paintGlyphs, updateDecoration, emit, okCtx,
    C1cexLine, layout2, gA, gB, red, black, bigB, Bounds.upper_right, Point.add_def,
    DrawCall.isUnderline, List.countP_cons, List.countP_nil]
  try simp [DrawCall.isUnderline, List.countP_cons, List.countP_nil]

/-- Claim C1 (amended): merging compares the incoming run's stored
underline style with the active resolved style. For two adjacent
decoration runs where the second run's stored underline equals the first
run's resolved underline style, the single-row paint emits exactly one
`paint_underline` call spanning from the first run's start x (x = 0 here)
to the second run's end x (the line end, x = width = 2), for arbitrary
fill colors and first-run underline style. -/
theorem C1_adjacent_same_resolved_merge (c1 c2 : Hsla) (u1 : UnderlineStyle) :
    (Line.paint
        ⟨layout2, [⟨1, c1, some u1⟩,
          ⟨1, c2, some ⟨some (u1.color.getD c1), u1.thickness, u1.wavy⟩⟩]⟩
        bigB bigB 12 okCtx).1.trace.filter DrawCall.isUnderline =
      [DrawCall.underline ⟨0, 2559 / 250⟩ 2
        ⟨some (u1.color.getD c1), u1.thickness, u1.wavy⟩] := by
  norm_num [Line.paint, paintRuns, paintGlyphs, updateDecoration, emit, okCtx,
    layout2, gA, gB, black, bigB, Bounds.upper_right, Point.add_def,
    DrawCall.isUnderline, List.filter_cons, List.filter_nil]
  try simp [DrawCall.isUnderline, List.filter_cons, List.filter_nil]

/-! ## Claim C6: exhausted decoration runs -/

/-- Claim C6, counterexample: on `C6cexLine` the second glyph is processed
after the decoration-run sequence is exhausted, yet it is painted with the
previous run's red fill color, not the default (black) styling of the
synthesized implicit run. -/
theorem C6_counterexample :
    (C6cexLine.paint bigB bigB 12 okCtx).1.trace =
      [DrawCall.glyph ⟨0, 9⟩ 7 0 10 red, DrawCall.glyph ⟨1, 9⟩ 7 1 10 red] ∧
      red ≠ black := by
  refine ⟨?_, by decide⟩
  norm_num [Line.paint, paintRuns, paintGlyphs, updateDecoration, emit, okCtx,
    C6cexLine, gA, gB, red, black, bigB, Bounds.upper_right, Point.add_def]
  try simp

/-- Claim C6 (amended): when a glyph's byte index reaches the current
decoration boundary and the decoration runs are exhausted, both paint
paths synthesize an implicit run: the byte boundary extends to the full
text length and any active underline is flushed (returned as finished);
the single-row path keeps the most recently set fill color for subsequent
non-emoji glyphs (shown for an arbitrary color `c`), while the wrapped
path also resets its (unused) fill color to the default black. -/
theorem C6_exhausted_implicit_run :
    (∀ (self : Line) (origin baseline_offset glyph_origin : Point) (gi : ℕ)
      (st : PaintState), gi ≥ st.run_end → st.style_runs = [] →
      updateDecoration self origin baseline_offset glyph_origin gi st =
        ({ st with run_end := self.layout.text_len, current_underline := none },
         st.current_underline)) ∧
    (∀ (self : Line) (baseline_offset glyph_origin : Point) (gi : ℕ)
      (st : WrappedState), gi ≥ st.style_run_end → st.color_runs = [] →
      updateDecorationWrapped self baseline_offset glyph_origin gi st =
        ({ st with
            style_run_end := self.layout.text_len
            color := black
            current_underline := none },
         st.current_underline)) ∧
    (∀ c : Hsla,
      (Line.paint ⟨⟨10, 2, 8, 2, [⟨7, [gA, gB]⟩], 1⟩, [⟨1, c, none⟩]⟩
          bigB bigB 12 okCtx).1.trace =
        [DrawCall.glyph ⟨0, 9⟩ 7 0 10 c, DrawCall.glyph ⟨1, 9⟩ 7 1 10 c]) := by
  refine ⟨?_, ?_, ?_⟩
  · intro self origin baseline_offset glyph_origin gi st hge hnil
    unfold updateDecoration
    rw [if_pos hge, hnil]
  · intro self baseline_offset glyph_origin gi st hge hnil
    unfold updateDecorationWrapped
    rw [if_pos hge, hnil]
  · intro c
    norm_num [Line.paint, paintRuns, paintGlyphs, updateDecoration, emit, okCtx,
      gA, gB, black, bigB, Bounds.upper_right, Point.add_def]
    try simp

/-- Witness for C6: the exhausted-branch equations evaluated at a concrete
state, and the retained-color trace at the concrete red line
(`C6cexLine`'s data). -/
theorem C6_exhausted_implicit_run_witness :
    updateDecoration C6cexLine ⟨0, 0⟩ ⟨0, 9⟩ ⟨1, 9⟩ 1
        ⟨[], 1, red, none, [], []⟩ = (⟨[], 1, red, none, [], []⟩, none) := by
  have h := C6_exhausted_implicit_run.1 C6cexLine ⟨0, 0⟩ ⟨0, 9⟩ ⟨1, 9⟩ 1
    ⟨[], 1, red, none, [], []⟩ (by decide) rfl
  rw [h]
  norm_num [C6cexLine]

/-! ## Error propagation helpers -/

theorem emit_ok (cx : WindowContext) (st : PaintState) (c : DrawCall)
    (h : cx.draw_err c = none) :
    emit cx st c = ({ st with trace := st.trace ++ [c] }, none) := by
  unfold emit
  rw [h]

theorem emitW_ok (cx : WindowContext) (st : WrappedState) (c : DrawCall)
    (h : cx.draw_err c = none) :
    emitW cx st c = ({ st with trace := st.trace ++ [c] }, none) := by
  unfold emitW
  rw [h]

/-- With a context whose draws never fail, the glyph loop of `Line::paint`
never reports an error. -/
theorem paintGlyphs_ok (self : Line) (cx : WindowContext) (o bo : Point)
    (vb : Bounds) (fid : ℕ) (w : ℚ) (hd : ∀ c, cx.draw_err c = none) :
    ∀ (gs : List Glyph) (st : PaintState),
      (paintGlyphs self cx o bo vb fid w st gs).2 = none
  | [], _ => rfl
  | g :: gs, st => by
    simp only [paintGlyphs, emit, hd]
    split
    · rfl
    · split
      · exact paintGlyphs_ok self cx o bo vb fid w hd gs _
      · rcases hud : (updateDecoration self o bo (o + bo + g.position) g.index st).2
          with _ | pu <;>
            simp only [hud] <;>
            cases hg : g.is_emoji <;>
            simp only [hg, if_true, if_false, Bool.false_eq_true, ite_true, ite_false] <;>
            exact paintGlyphs_ok self cx o bo vb fid w hd gs _

/-- With a fully non-failing context, the run loop of `Line::paint` never
reports an error. -/
theorem paintRuns_ok (self : Line) (cx : WindowContext) (o bo : Point)
    (vb : Bounds) (hcx : cx.ok) :
    ∀ (rs : List ShapedRun) (st : PaintState),
      (paintRuns self cx o bo vb st rs).2 = none
  | [], _ => rfl
  | r :: rs, st => by
    obtain ⟨sz, hsz⟩ := hcx.2 r.font_id self.layout.font_size
    simp only [paintRuns, hsz]
    rcases hpg : paintGlyphs self cx o bo vb r.font_id sz.width
        { st with queries := st.queries ++ [r.font_id] } r.glyphs with ⟨st1, e⟩
    have he : e = none := by
      have h2 := paintGlyphs_ok self cx o bo vb r.font_id sz.width hcx.1 r.glyphs
        { st with queries := st.queries ++ [r.font_id] }
      rw [hpg] at h2
      exact h2
    subst he
    exact paintRuns_ok self cx o bo vb hcx rs st1

/-- Every call recorded in the trace by `emit` was accepted by the
context. -/
theorem emit_trace_ok (cx : WindowContext) (st : PaintState) (c : DrawCall)
    (h : ∀ d ∈ st.trace, cx.draw_err d = none) :
    ∀ d ∈ (emit cx st c).1.trace, cx.draw_err d = none := by
  unfold emit
  cases hc : cx.draw_err c with
  | some e => exact h
  | none =>
    intro d hd
    rcases List.mem_append.mp hd with h1 | h2
    · exact h d h1
    · rw [List.mem_singleton.mp h2]
      exact hc

/-- Counterpart of `emit_trace_ok` for the wrapped paint. -/
theorem emitW_trace_ok (cx : WindowContext) (st : WrappedState) (c : DrawCall)
    (h : ∀ d ∈ st.trace, cx.draw_err d = none) :
    ∀ d ∈ (emitW cx st c).1.trace, cx.draw_err d = none := by
  unfold emitW
  cases hc : cx.draw_err c with
  | some e => exact h
  | none =>
    intro d hd
    rcases List.mem_append.mp hd with h1 | h2
    · exact h d h1
    · rw [List.mem_singleton.mp h2]
      exact hc

theorem emit_cases (cx : WindowContext) (st : PaintState) (c : DrawCall) :
    (∃ e, cx.draw_err c = some e ∧ emit cx st c = (st, some e)) ∨
      (cx.draw_err c = none ∧
        emit cx st c = ({ st with trace := st.trace ++ [c] }, none)) := by
  unfold emit
  cases h : cx.draw_err c with
  | some e => exact Or.inl ⟨e, rfl, rfl⟩
  | none => exact Or.inr ⟨rfl, rfl⟩

/-- Every call recorded in the trace by the glyph loop of `Line::paint`
was accepted by the context (for an arbitrary, possibly failing
context). -/
theorem paintGlyphs_trace_ok (self : Line) (cx : WindowContext) (o bo : Point)
    (vb : Bounds) (fid : ℕ) (w : ℚ) :
    ∀ (gs : List Glyph) (st : PaintState),
      (∀ d ∈ st.trace, cx.draw_err d = none) →
      ∀ d ∈ (paintGlyphs self cx o bo vb fid w st gs).1.trace, cx.draw_err d = none
  | [], _, h => h
  | g :: gs, st, h => by
    have hud : ∀ d ∈ (updateDecoration self o bo (o + bo + g.position) g.index st).1.trace,
        cx.draw_err d = none := by
      rw [(updateDecoration_pres self o bo (o + bo + g.position) g.index st).1]
      exact h
    have stage : ∀ (st1 : PaintState) (c : DrawCall),
        (∀ d ∈ st1.trace, cx.draw_err d = none) →
        ∀ d ∈ (match (emit cx st1 c).2 with
               | some e => ((emit cx st1 c).1, some e)
               | none => paintGlyphs self cx o bo vb fid w (emit cx st1 c).1 gs).1.trace,
          cx.draw_err d = none := by
      intro st1 c h1
      rcases emit_cases cx st1 c with ⟨e, _, heq⟩ | ⟨he, heq⟩ <;> rw [heq]
      · exact h1
      · refine paintGlyphs_trace_ok self cx o bo vb fid w gs _ ?_
        intro d hd
        rcases List.mem_append.mp hd with h1' | h2
        · exact h1 d h1'
        · rw [List.mem_singleton.mp h2]
          exact he
    simp only [paintGlyphs]
    split
    · exact h
    split
    · exact paintGlyphs_trace_ok self cx o bo vb fid w gs _ hud
    · rcases hud2 : (updateDecoration self o bo (o + bo + g.position) g.index st).2
        with _ | pu <;> simp only [hud2]
      · cases hg : g.is_emoji <;>
          simp only [hg, ite_true, ite_false, Bool.false_eq_true] <;>
          exact stage _ _ hud
      · rcases emit_cases cx (updateDecoration self o bo (o + bo + g.position) g.index st).1
          (.underline pu.1 ((o + bo + g.position).x - pu.1.x) pu.2) with
            ⟨e, _, heq⟩ | ⟨he, heq⟩ <;> rw [heq]
        · exact hud
        · have h1 : ∀ d ∈ ((updateDecoration self o bo (o + bo + g.position)
              g.index st).1.trace ++
                [DrawCall.underline pu.1 ((o + bo + g.position).x - pu.1.x) pu.2]),
              cx.draw_err d = none := by
            intro d hd
            rcases List.mem_append.mp hd with h1' | h2
            · exact hud d h1'
            · rw [List.mem_singleton.mp h2]
              exact he
          cases hg : g.is_emoji <;>
            simp only [hg, ite_true, ite_false, Bool.false_eq_true] <;>
            exact stage _ _ h1

/-- Every call recorded in the trace by the run loop of `Line::paint` was
accepted by the context. -/
theorem paintRuns_trace_ok (self : Line) (cx : WindowContext) (o bo : Point)
    (vb : Bounds) :
    ∀ (rs : List ShapedRun) (st : PaintState),
      (∀ d ∈ st.trace, cx.draw_err d = none) →
      ∀ d ∈ (paintRuns self cx o bo vb st rs).1.trace, cx.draw_err d = none
  | [], _, h => h
  | r :: rs, st, h => by
    simp only [paintRuns]
    cases hbb : cx.bounding_box r.font_id self.layout.font_size with
    | error e => exact h
    | ok sz =>
      rcases hpg : paintGlyphs self cx o bo vb r.font_id sz.width
          { st with queries := st.queries ++ [r.font_id] } r.glyphs with ⟨st1, e⟩
      have h1 : ∀ d ∈ st1.trace, cx.draw_err d = none := by
        have h2 := paintGlyphs_trace_ok self cx o bo vb r.font_id sz.width r.glyphs
          { st with queries := st.queries ++ [r.font_id] } h
        rw [hpg] at h2
        exact h2
      simp only [hpg]
      cases e with
      | some e => exact h1
      | none => exact paintRuns_trace_ok self cx o bo vb rs st1 h1

/-! ## Wrapped-paint helpers -/

theorem emitW_cases (cx : WindowContext) (st : WrappedState) (c : DrawCall) :
    (∃ e, cx.draw_err c = some e ∧ emitW cx st c = (st, some e)) ∨
      (cx.draw_err c = none ∧
        emitW cx st c = ({ st with trace := st.trace ++ [c] }, none)) := by
  unfold emitW
  cases h : cx.draw_err c with
  | some e => exact Or.inl ⟨e, rfl, rfl⟩
  | none => exact Or.inr ⟨rfl, rfl⟩

/-- The decoration bookkeeping of `Line::paint_wrapped` leaves the draw
trace, query log, boundary cursor, draw origin and previous position
untouched. -/
theorem updateDecorationWrapped_pres (self : Line) (bo go : Point) (gi : ℕ)
    (st : WrappedState) :
    (updateDecorationWrapped self bo go gi st).1.trace = st.trace ∧
    (updateDecorationWrapped self bo go gi st).1.queries = st.queries ∧
    (updateDecorationWrapped self bo go gi st).1.boundaries = st.boundaries ∧
    (updateDecorationWrapped self bo go gi st).1.glyph_origin = st.glyph_origin ∧
    (updateDecorationWrapped self bo go gi st).1.prev_position = st.prev_position := by
  unfold updateDecorationWrapped
  by_cases h : gi ≥ st.style_run_end
  · rw [if_pos h]
    rcases hsr : st.color_runs with _ | ⟨sr, rest⟩ <;> simp
  · rw [if_neg h]
    exact ⟨rfl, rfl, rfl, rfl, rfl⟩

/-- Case analysis of the wrap-boundary handling: either the pending
boundary does not match and the state passes through unchanged, or it
matches and the boundary is consumed, the draw origin is reset to the
destination's left edge one line height down, and any active underline is
flushed at the pre-reset x (or the flush fails and the error is
returned before the reset). -/
theorem handleBoundary_cases (cx : WindowContext) (o : Point) (lh : ℚ)
    (rix gix : ℕ) (st : WrappedState) :
    ((∀ b ∈ st.boundaries.take 1, ¬(b.run_ix = rix ∧ b.glyph_ix = gix)) ∧
      handleBoundary cx o lh rix gix st = (st, none)) ∨
    (∃ b bs, st.boundaries = b :: bs ∧ b.run_ix = rix ∧ b.glyph_ix = gix ∧
      ((st.current_underline = none ∧
        handleBoundary cx o lh rix gix st =
          ({ st with
              boundaries := bs
              glyph_origin := ⟨o.x, st.glyph_origin.y + lh⟩ }, none)) ∨
       (∃ pu e, st.current_underline = some pu ∧
        cx.draw_err (.underline pu.1 (st.glyph_origin.x - pu.1.x) pu.2) = some e ∧
        handleBoundary cx o lh rix gix st =
          ({ st with boundaries := bs, current_underline := none }, some e)) ∨
       (∃ pu, st.current_underline = some pu ∧
        cx.draw_err (.underline pu.1 (st.glyph_origin.x - pu.1.x) pu.2) = none ∧
        handleBoundary cx o lh rix gix st =
          ({ st with
              boundaries := bs
              current_underline := none
              glyph_origin := ⟨o.x, st.glyph_origin.y + lh⟩
              trace := st.trace ++
                [.underline pu.1 (st.glyph_origin.x - pu.1.x) pu.2] }, none)))) := by
  rcases hb : st.boundaries with _ | ⟨b, bs⟩
  · exact Or.inl ⟨by simp [hb], by simp [handleBoundary, hb]⟩
  · by_cases hm : b.run_ix = rix ∧ b.glyph_ix = gix
    · refine Or.inr ⟨b, bs, rfl, hm.1, hm.2, ?_⟩
      rcases hcu : st.current_underline with _ | pu
      · exact Or.inl ⟨rfl, by simp [handleBoundary, hb, hm.1, hm.2, hcu]⟩
      · cases he : cx.draw_err (.underline pu.1 (st.glyph_origin.x - pu.1.x) pu.2) with
        | some e =>
          refine Or.inr (Or.inl ⟨pu, e, rfl, he, ?_⟩)
          simp [handleBoundary, emitW, hb, hm.1, hm.2, hcu, he]
        | none =>
          refine Or.inr (Or.inr ⟨pu, rfl, he, ?_⟩)
          simp [handleBoundary, emitW, hb, hm.1, hm.2, hcu, he]
    · exact Or.inl ⟨by simpa using hm, by simp [handleBoundary, hb, hm]⟩

/-- Any call appended to the trace by the decoration/metrics part of a
wrapped glyph step is an underline call that the context accepted. -/
theorem wrappedDecoStep_trace (self : Line) (cx : WindowContext) (bo : Point)
    (fid : ℕ) (st : WrappedState) (g : Glyph) :
    ∀ c ∈ (wrappedDecoStep self cx bo fid st g).1.trace,
      c ∈ st.trace ∨ (c.isUnderline = true ∧ cx.draw_err c = none) := by
  have hpres := updateDecorationWrapped_pres self bo
    ({ st with prev_position := g.position.x }).glyph_origin g.index
    { st with prev_position := g.position.x }
  simp only [wrappedDecoStep]
  rcases hud2 : (updateDecorationWrapped self bo
      ({ st with prev_position := g.position.x }).glyph_origin g.index
      { st with prev_position := g.position.x }).2 with _ | pu <;>
    simp only [hud2]
  · cases hbb : cx.bounding_box fid self.layout.font_size <;>
      simp only [hbb] <;>
      intro c hc <;>
      refine Or.inl ?_ <;>
      · rw [hpres.1] at hc
        exact hc
  · rcases emitW_cases cx (updateDecorationWrapped self bo
        ({ st with prev_position := g.position.x }).glyph_origin g.index
        { st with prev_position := g.position.x }).1
        (.underline pu.1
          ((updateDecorationWrapped self bo
            ({ st with prev_position := g.position.x }).glyph_origin g.index
            { st with prev_position := g.position.x }).1.glyph_origin.x - pu.1.x) pu.2) with
      ⟨e, _, heq⟩ | ⟨he, heq⟩ <;> rw [heq]
    · intro c hc
      refine Or.inl ?_
      rw [hpres.1] at hc
      exact hc
    · cases hbb : cx.bounding_box fid self.layout.font_size <;>
        simp only [hbb] <;>
        intro c hc <;>
        · rcases List.mem_append.mp hc with h1 | h2
          · refine Or.inl ?_
            rw [hpres.1] at h1
            exact h1
          · rw [List.mem_singleton.mp h2]
            exact Or.inr ⟨rfl, he⟩

/-- Under a non-failing context, the decoration/metrics part of a wrapped
glyph step succeeds, appends exactly one `bounding_box` query for the
run's font, and leaves the boundary cursor and draw origin untouched. -/
theorem wrappedDecoStep_ok (self : Line) (cx : WindowContext) (bo : Point)
    (fid : ℕ) (hcx : cx.ok) (st : WrappedState) (g : Glyph) :
    (wrappedDecoStep self cx bo fid st g).2 = none ∧
    (wrappedDecoStep self cx bo fid st g).1.queries = st.queries ++ [fid] ∧
    (wrappedDecoStep self cx bo fid st g).1.boundaries = st.boundaries ∧
    (wrappedDecoStep self cx bo fid st g).1.glyph_origin = st.glyph_origin := by
  obtain ⟨sz, hbb⟩ := hcx.2 fid self.layout.font_size
  have hpres := updateDecorationWrapped_pres self bo
    ({ st with prev_position := g.position.x }).glyph_origin g.index
    { st with prev_position := g.position.x }
  simp only [wrappedDecoStep]
  rcases hud2 : (updateDecorationWrapped self bo
      ({ st with prev_position := g.position.x }).glyph_origin g.index
      { st with prev_position := g.position.x }).2 with _ | pu <;>
    simp only [hud2]
  · rw [hbb]
    refine ⟨rfl, ?_, ?_, ?_⟩
    · rw [hpres.2.1]
    · rw [hpres.2.2.1]
    · rw [hpres.2.2.2.1]
  · rw [emitW_ok cx _ _ (hcx.1 _), hbb]
    refine ⟨rfl, ?_, ?_, ?_⟩
    · rw [hpres.2.1]
    · rw [hpres.2.2.1]
    · rw [hpres.2.2.2.1]

/-- Any call appended to the trace by one wrapped glyph step is an
underline call that the context accepted. -/
theorem wrappedGlyphStep_trace (self : Line) (cx : WindowContext) (o bo : Point)
    (lh : ℚ) (rix fid gix : ℕ) (st : WrappedState) (g : Glyph) :
    ∀ c ∈ (wrappedGlyphStep self cx o bo lh rix fid gix st g).1.trace,
      c ∈ st.trace ∨ (c.isUnderline = true ∧ cx.draw_err c = none) := by
  simp only [wrappedGlyphStep]
  rcases handleBoundary_cases cx o lh rix gix
      { st with glyph_origin :=
        ⟨st.glyph_origin.x + g.position.x - st.prev_position, st.glyph_origin.y⟩ } with
    ⟨-, heq⟩ | ⟨b, bs, hb, hbr, hbg, hcase⟩
  · rw [heq]
    intro c hc
    rcases wrappedDecoStep_trace self cx bo fid _ g c hc with h1 | h2
    · exact Or.inl h1
    · exact Or.inr h2
  · rcases hcase with ⟨hcu, heq⟩ | ⟨pu, e, hcu, he, heq⟩ | ⟨pu, hcu, he, heq⟩ <;>
      rw [heq] <;> intro c hc
    · rcases wrappedDecoStep_trace self cx bo fid _ g c hc with h1 | h2
      · exact Or.inl h1
      · exact Or.inr h2
    · exact Or.inl hc
    · rcases wrappedDecoStep_trace self cx bo fid _ g c hc with h1 | h2
      · rcases List.mem_append.mp h1 with ha | hb2
        · exact Or.inl ha
        · rw [List.mem_singleton.mp hb2]
          exact Or.inr ⟨rfl, he⟩
      · exact Or.inr h2

/-- Under a non-failing context, one wrapped glyph step succeeds, appends
exactly one `bounding_box` query, and treats the boundary cursor and the
draw-origin y exactly as the spec says: unchanged when the pending
boundary does not match, consumed with a one-line-height advance when it
does. -/
theorem wrappedGlyphStep_ok (self : Line) (cx : WindowContext) (o bo : Point)
    (lh : ℚ) (rix fid gix : ℕ) (hcx : cx.ok) (st : WrappedState) (g : Glyph) :
    (wrappedGlyphStep self cx o bo lh rix fid gix st g).2 = none ∧
    (wrappedGlyphStep self cx o bo lh rix fid gix st g).1.queries =
      st.queries ++ [fid] ∧
    ((∀ b ∈ st.boundaries.take 1, ¬(b.run_ix = rix ∧ b.glyph_ix = gix)) →
      (wrappedGlyphStep self cx o bo lh rix fid gix st g).1.boundaries =
          st.boundaries ∧
        (wrappedGlyphStep self cx o bo lh rix fid gix st g).1.glyph_origin.y =
          st.glyph_origin.y) ∧
    (∀ b bs, st.boundaries = b :: bs → b.run_ix = rix → b.glyph_ix = gix →
      (wrappedGlyphStep self cx o bo lh rix fid gix st g).1.boundaries = bs ∧
        (wrappedGlyphStep self cx o bo lh rix fid gix st g).1.glyph_origin.y =
          st.glyph_origin.y + lh) := by
  simp only [wrappedGlyphStep]
  rcases handleBoundary_cases cx o lh rix gix
      { st with glyph_origin :=
        ⟨st.glyph_origin.x + g.position.x - st.prev_position, st.glyph_origin.y⟩ } with
    ⟨hnm, heq⟩ | ⟨b, bs, hb, hbr, hbg, hcase⟩
  · rw [heq]
    obtain ⟨h1, h2, h3, h4⟩ := wrappedDecoStep_ok self cx bo fid hcx _ g
    refine ⟨h1, h2, fun _ => ⟨by rw [h3], by rw [h4]⟩, ?_⟩
    intro b bs hbnd hr hg2
    exact absurd ⟨hr, hg2⟩ (hnm b (by rw [show st.boundaries = b :: bs from hbnd]; simp))
  · have hmatch :
        ¬ (∀ b' ∈ st.boundaries.take 1, ¬(b'.run_ix = rix ∧ b'.glyph_ix = gix)) := by
      intro hno
      exact hno b (by rw [show st.boundaries = b :: bs from hb]; simp) ⟨hbr, hbg⟩
    rcases hcase with ⟨hcu, heq⟩ | ⟨pu, e, hcu, he, heq⟩ | ⟨pu, hcu, he, heq⟩
    · rw [heq]
      obtain ⟨h1, h2, h3, h4⟩ := wrappedDecoStep_ok self cx bo fid hcx _ g
      refine ⟨h1, h2, fun hno => absurd hno hmatch, ?_⟩
      intro b' bs' hbnd hr hg2
      injection hb.symm.trans hbnd with e1 e2
      subst e1
      subst e2
      exact ⟨by rw [h3], by rw [h4]⟩
    · rw [hcx.1 _] at he
      exact absurd he (by simp)
    · rw [heq]
      obtain ⟨h1, h2, h3, h4⟩ := wrappedDecoStep_ok self cx bo fid hcx _ g
      refine ⟨h1, by rw [h2], fun hno => absurd hno hmatch, ?_⟩
      intro b' bs' hbnd hr hg2
      injection hb.symm.trans hbnd with e1 e2
      subst e1
      subst e2
      exact ⟨by rw [h3], by rw [h4]⟩

/-- Any call in the trace produced by the wrapped glyph loop is either an
input-trace call or an accepted underline call. -/
theorem paintWrappedGlyphs_trace (self : Line) (cx : WindowContext) (o bo : Point)
    (lh : ℚ) (rix fid : ℕ) :
    ∀ (gs : List Glyph) (gix : ℕ) (st : WrappedState),
      ∀ c ∈ (paintWrappedGlyphs self cx o bo lh rix fid gix st gs).1.trace,
        c ∈ st.trace ∨ (c.isUnderline = true ∧ cx.draw_err c = none)
  | [], _, _ => fun _ hc => Or.inl hc
  | g :: gs, gix, st => by
    simp only [paintWrappedGlyphs]
    rcases hstep : wrappedGlyphStep self cx o bo lh rix fid gix st g with ⟨st1, e⟩
    have htr := wrappedGlyphStep_trace self cx o bo lh rix fid gix st g
    rw [hstep] at htr
    cases e with
    | some e => exact htr
    | none =>
      intro c hc
      rcases paintWrappedGlyphs_trace self cx o bo lh rix fid gs (gix + 1) st1 c hc with
        h1 | h2
      · exact htr c h1
      · exact Or.inr h2

/-- Under a non-failing context the wrapped glyph loop succeeds and
records one `bounding_box` query per glyph. -/
theorem paintWrappedGlyphs_ok (self : Line) (cx : WindowContext) (o bo : Point)
    (lh : ℚ) (rix fid : ℕ) (hcx : cx.ok) :
    ∀ (gs : List Glyph) (gix : ℕ) (st : WrappedState),
      (paintWrappedGlyphs self cx o bo lh rix fid gix st gs).2 = none ∧
      (paintWrappedGlyphs self cx o bo lh rix fid gix st gs).1.queries =
        st.queries ++ gs.map (fun _ => fid)
  | [], _, st => ⟨rfl, by simp [paintWrappedGlyphs]⟩
  | g :: gs, gix, st => by
    simp only [paintWrappedGlyphs]
    rcases hstep : wrappedGlyphStep self cx o bo lh rix fid gix st g with ⟨st1, e⟩
    obtain ⟨h1, h2, -, -⟩ := wrappedGlyphStep_ok self cx o bo lh rix fid gix hcx st g
    rw [hstep] at h1 h2
    subst h1
    simp only [hstep]
    obtain ⟨ih1, ih2⟩ := paintWrappedGlyphs_ok self cx o bo lh rix fid hcx gs (gix + 1) st1
    refine ⟨ih1, ?_⟩
    rw [ih2, h2]
    simp

/-- Any call in the trace produced by the wrapped run loop is either an
input-trace call or an accepted underline call. -/
theorem paintWrappedRuns_trace (self : Line) (cx : WindowContext) (o bo : Point)
    (lh : ℚ) :
    ∀ (rs : List ShapedRun) (rix : ℕ) (st : WrappedState),
      ∀ c ∈ (paintWrappedRuns self cx o bo lh rix st rs).1.trace,
        c ∈ st.trace ∨ (c.isUnderline = true ∧ cx.draw_err c = none)
  | [], _, _ => fun _ hc => Or.inl hc
  | r :: rs, rix, st => by
    simp only [paintWrappedRuns]
    rcases hpg : paintWrappedGlyphs self cx o bo lh rix r.font_id 0 st r.glyphs with
      ⟨st1, e⟩
    have htr := paintWrappedGlyphs_trace self cx o bo lh rix r.font_id r.glyphs 0 st
    rw [hpg] at htr
    cases e with
    | some e => exact htr
    | none =>
      intro c hc
      rcases paintWrappedRuns_trace self cx o bo lh rs (rix + 1) st1 c hc with h1 | h2
      · exact htr c h1
      · exact Or.inr h2

/-- Under a non-failing context the wrapped run loop succeeds and records
one `bounding_box` query per glyph per run. -/
theorem paintWrappedRuns_ok (self : Line) (cx : WindowContext) (o bo : Point)
    (lh : ℚ) (hcx : cx.ok) :
    ∀ (rs : List ShapedRun) (rix : ℕ) (st : WrappedState),
      (paintWrappedRuns self cx o bo lh rix st rs).2 = none ∧
      (paintWrappedRuns self cx o bo lh rix st rs).1.queries =
        st.queries ++ (rs.map (fun r => r.glyphs.map fun _ => r.font_id)).flatten
  | [], _, st => ⟨rfl, by simp [paintWrappedRuns]⟩
  | r :: rs, rix, st => by
    simp only [paintWrappedRuns]
    rcases hpg : paintWrappedGlyphs self cx o bo lh rix r.font_id 0 st r.glyphs with
      ⟨st1, e⟩
    obtain ⟨h1, h2⟩ := paintWrappedGlyphs_ok self cx o bo lh rix r.font_id hcx r.glyphs 0 st
    rw [hpg] at h1 h2
    subst h1
    simp only [hpg]
    obtain ⟨ih1, ih2⟩ := paintWrappedRuns_ok self cx o bo lh hcx rs (rix + 1) st1
    refine ⟨ih1, ?_⟩
    rw [ih2, h2]
    simp

/-- Under a non-failing context, `Line::paint` succeeds. -/
theorem paint_ok (self : Line) (bounds vb : Bounds) (lh : ℚ) (cx : WindowContext)
    (hcx : cx.ok) : (self.paint bounds vb lh cx).2 = none := by
  simp only [Line.paint]
  rcases hpr : paintRuns self cx bounds.origin
      ⟨0, (lh - self.layout.ascent - self.layout.descent) / 2 + self.layout.ascent⟩ vb
      { style_runs := self.decoration_runs, run_end := 0, color := black,
        current_underline := none, queries := [], trace := [] } self.layout.runs with
    ⟨st, e⟩
  have he := paintRuns_ok self cx bounds.origin
    ⟨0, (lh - self.layout.ascent - self.layout.descent) / 2 + self.layout.ascent⟩ vb hcx
    self.layout.runs
    { style_runs := self.decoration_runs, run_end := 0, color := black,
      current_underline := none, queries := [], trace := [] }
  rw [hpr] at he
  subst he
  rcases st with ⟨srs, re, col, cu, qs, tr⟩
  cases cu with
  | none => rfl
  | some pu =>
    show (emit cx ⟨srs, re, col, none, qs, tr⟩
      (.underline pu.1 (bounds.origin.x + self.layout.width - pu.1.x) pu.2)).2 = none
    rw [emit_ok cx _ _ (hcx.1 _)]

/-- Every draw call recorded by `Line::paint` was accepted by the context
(holds for an arbitrary, possibly failing context). -/
theorem paint_trace (self : Line) (bounds vb : Bounds) (lh : ℚ) (cx : WindowContext) :
    ∀ d ∈ (self.paint bounds vb lh cx).1.trace, cx.draw_err d = none := by
  simp only [Line.paint]
  rcases hpr : paintRuns self cx bounds.origin
      ⟨0, (lh - self.layout.ascent - self.layout.descent) / 2 + self.layout.ascent⟩ vb
      { style_runs := self.decoration_runs, run_end := 0, color := black,
        current_underline := none, queries := [], trace := [] } self.layout.runs with
    ⟨st, e⟩
  have htr := paintRuns_trace_ok self cx bounds.origin
    ⟨0, (lh - self.layout.ascent - self.layout.descent) / 2 + self.layout.ascent⟩ vb
    self.layout.runs
    { style_runs := self.decoration_runs, run_end := 0, color := black,
      current_underline := none, queries := [], trace := [] } (by intro d hd; cases hd)
  rw [hpr] at htr
  rcases st with ⟨srs, re, col, cu, qs, tr⟩
  cases e with
  | some e => exact htr
  | none =>
    cases cu with
    | none => exact htr
    | some pu =>
      show ∀ d ∈ (emit cx ⟨srs, re, col, none, qs, tr⟩
        (.underline pu.1 (bounds.origin.x + self.layout.width - pu.1.x) pu.2)).1.trace,
        cx.draw_err d = none
      rcases emit_cases cx (⟨srs, re, col, none, qs, tr⟩ : PaintState)
          (.underline pu.1 (bounds.origin.x + self.layout.width - pu.1.x) pu.2) with
        ⟨e, _, heq⟩ | ⟨he, heq⟩ <;> rw [heq]
      · exact htr
      · intro d hd
        rcases List.mem_append.mp hd with h1 | h2
        · exact htr d h1
        · rw [List.mem_singleton.mp h2]
          exact he

/-- Every call recorded by `Line::paint_wrapped` is an underline call that
the context accepted: this path never draws glyphs or emoji. -/
theorem paint_wrapped_trace (self : Line) (o : Point) (vb : Bounds) (lh : ℚ)
    (bs : List ShapedBoundary) (cx : WindowContext) :
    ∀ c ∈ (self.paint_wrapped o vb lh bs cx).1.trace,
      c.isUnderline = true ∧ cx.draw_err c = none := by
  simp only [Line.paint_wrapped]
  rcases hpr : paintWrappedRuns self cx o
      ⟨0, (lh - self.layout.ascent - self.layout.descent) / 2 + self.layout.ascent⟩ lh 0
      { boundaries := bs, color_runs := self.decoration_runs, style_run_end := 0,
        color := black, current_underline := none, glyph_origin := o,
        prev_position := 0, queries := [], trace := [] } self.layout.runs with
    ⟨st, e⟩
  have htr := paintWrappedRuns_trace self cx o
    ⟨0, (lh - self.layout.ascent - self.layout.descent) / 2 + self.layout.ascent⟩ lh
    self.layout.runs 0
    { boundaries := bs, color_runs := self.decoration_runs, style_run_end := 0,
      color := black, current_underline := none, glyph_origin := o,
      prev_position := 0, queries := [], trace := [] }
  rw [hpr] at htr
  have htr2 : ∀ c ∈ st.trace, c.isUnderline = true ∧ cx.draw_err c = none := by
    intro c hc
    rcases htr c hc with h1 | h2
    · cases h1
    · exact h2
  rcases st with ⟨bnd, crs, sre, col, cu, go, pp, qs, tr⟩
  cases e with
  | some e => exact htr2
  | none =>
    cases cu with
    | none => exact htr2
    | some pu =>
      show ∀ c ∈ (emitW cx ⟨bnd, crs, sre, col, none, go, pp, qs, tr⟩
        (.underline pu.1 (go.x + self.layout.width - pp - pu.1.x) pu.2)).1.trace,
        c.isUnderline = true ∧ cx.draw_err c = none
      rcases emitW_cases cx (⟨bnd, crs, sre, col, none, go, pp, qs, tr⟩ : WrappedState)
          (.underline pu.1 (go.x + self.layout.width - pp - pu.1.x) pu.2) with
        ⟨e, _, heq⟩ | ⟨he, heq⟩ <;> rw [heq]
      · exact htr2
      · intro c hc
        rcases List.mem_append.mp hc with h1 | h2
        · exact htr2 c h1
        · rw [List.mem_singleton.mp h2]
          exact ⟨rfl, he⟩

/-- Under a non-failing context, `Line::paint_wrapped` succeeds. -/
theorem paint_wrapped_ok (self : Line) (o : Point) (vb : Bounds) (lh : ℚ)
    (bs : List ShapedBoundary) (cx : WindowContext) (hcx : cx.ok) :
    (self.paint_wrapped o vb lh bs cx).2 = none := by
  simp only [Line.paint_wrapped]
  rcases hpr : paintWrappedRuns self cx o
      ⟨0, (lh - self.layout.ascent - self.layout.descent) / 2 + self.layout.ascent⟩ lh 0
      { boundaries := bs, color_runs := self.decoration_runs, style_run_end := 0,
        color := black, current_underline := none, glyph_origin := o,
        prev_position := 0, queries := [], trace := [] } self.layout.runs with
    ⟨st, e⟩
  have he := (paintWrappedRuns_ok self cx o
    ⟨0, (lh - self.layout.ascent - self.layout.descent) / 2 + self.layout.ascent⟩ lh hcx
    self.layout.runs 0
    { boundaries := bs, color_runs := self.decoration_runs, style_run_end := 0,
      color := black, current_underline := none, glyph_origin := o,
      prev_position := 0, queries := [], trace := [] }).1
  rw [hpr] at he
  subst he
  rcases st with ⟨bnd, crs, sre, col, cu, go, pp, qs, tr⟩
  cases cu with
  | none => rfl
  | some pu =>
    show (emitW cx ⟨bnd, crs, sre, col, none, go, pp, qs, tr⟩
      (.underline pu.1 (go.x + self.layout.width - pp - pu.1.x) pu.2)).2 = none
    rw [emitW_ok cx _ _ (hcx.1 _)]

theorem okCtx_ok : okCtx.ok :=
  ⟨fun _ => rfl, fun _ _ => ⟨⟨5, 10⟩, rfl⟩⟩

/-- Under a non-failing context, `Line::paint_wrapped` records one
`bounding_box` query per glyph per run. -/
theorem paint_wrapped_queries (self : Line) (o : Point) (vb : Bounds) (lh : ℚ)
    (bs : List ShapedBoundary) (cx : WindowContext) (hcx : cx.ok) :
    (self.paint_wrapped o vb lh bs cx).1.queries =
      (self.layout.runs.map (fun r => r.glyphs.map fun _ => r.font_id)).flatten := by
  simp only [Line.paint_wrapped]
  rcases hpr : paintWrappedRuns self cx o
      ⟨0, (lh - self.layout.ascent - self.layout.descent) / 2 + self.layout.ascent⟩ lh 0
      { boundaries := bs, color_runs := self.decoration_runs, style_run_end := 0,
        color := black, current_underline := none, glyph_origin := o,
        prev_position := 0, queries := [], trace := [] } self.layout.runs with
    ⟨st, e⟩
  obtain ⟨h1, h2⟩ := paintWrappedRuns_ok self cx o
    ⟨0, (lh - self.layout.ascent - self.layout.descent) / 2 + self.layout.ascent⟩ lh hcx
    self.layout.runs 0
    { boundaries := bs, color_runs := self.decoration_runs, style_run_end := 0,
      color := black, current_underline := none, glyph_origin := o,
      prev_position := 0, queries := [], trace := [] }
  rw [hpr] at h1 h2
  subst h1
  rcases st with ⟨bnd, crs, sre, col, cu, go, pp, qs, tr⟩
  cases cu with
  | none => simpa using h2
  | some pu =>
    show (emitW cx ⟨bnd, crs, sre, col, none, go, pp, qs, tr⟩
      (.underline pu.1 (go.x + self.layout.width - pp - pu.1.x) pu.2)).1.queries =
      (self.layout.runs.map (fun r => r.glyphs.map fun _ => r.font_id)).flatten
    rcases emitW_cases cx (⟨bnd, crs, sre, col, none, go, pp, qs, tr⟩ : WrappedState)
        (.underline pu.1 (go.x + self.layout.width - pp - pu.1.x) pu.2) with
      ⟨e, _, heq⟩ | ⟨_, heq⟩ <;> rw [heq] <;> simpa using h2

/-! ## Claim C8: error propagation -/

/-- Claim C8: if no external call fails, both paint operations succeed;
every draw call either operation records in its trace was accepted by the
context (a failing call is never recorded, and nothing is emitted after
it — the model aborts at the first error, mirroring the source's `?`
operator); and a metrics failure on the first run's font aborts the
single-row paint immediately with that error and an empty trace. -/
theorem C8_error_propagation :
    (∀ (self : Line) (bounds vb : Bounds) (lh : ℚ) (cx : WindowContext), cx.ok →
      (self.paint bounds vb lh cx).2 = none) ∧
    (∀ (self : Line) (bounds vb : Bounds) (lh : ℚ) (cx : WindowContext),
      ∀ d ∈ (self.paint bounds vb lh cx).1.trace, cx.draw_err d = none) ∧
    (∀ (self : Line) (o : Point) (vb : Bounds) (lh : ℚ) (bs : List ShapedBoundary)
      (cx : WindowContext), cx.ok → (self.paint_wrapped o vb lh bs cx).2 = none) ∧
    (∀ (self : Line) (o : Point) (vb : Bounds) (lh : ℚ) (bs : List ShapedBoundary)
      (cx : WindowContext),
      ∀ d ∈ (self.paint_wrapped o vb lh bs cx).1.trace, cx.draw_err d = none) ∧
    (∀ (self : Line) (bounds vb : Bounds) (lh : ℚ) (cx : WindowContext)
      (r : ShapedRun) (rs : List ShapedRun) (e : ℕ), self.layout.runs = r :: rs →
      cx.bounding_box r.font_id self.layout.font_size = .error e →
      (self.paint bounds vb lh cx).2 = some e ∧
        (self.paint bounds vb lh cx).1.trace = []) := by
  refine ⟨paint_ok, paint_trace, paint_wrapped_ok,
    fun self o vb lh bs cx d hd => (paint_wrapped_trace self o vb lh bs cx d hd).2, ?_⟩
  intro self bounds vb lh cx r rs e hruns herr
  simp only [Line.paint, paintRuns, hruns, herr]
  refine ⟨?_, ?_⟩ <;> first | rfl | trivial

/-- Witness for C8: the single-row paint of `lineAB` succeeds under the
non-failing context and aborts with error 5 under the failing-metrics
context. -/
theorem C8_error_propagation_witness :
    (lineAB.paint bigB bigB 12 okCtx).2 = none ∧
      (lineAB.paint bigB bigB 12 badCtx).2 = some 5 := by
  refine ⟨C8_error_propagation.1 lineAB bigB bigB 12 okCtx okCtx_ok, ?_⟩
  exact (C8_error_propagation.2.2.2.2 lineAB bigB bigB 12 badCtx ⟨7, [gA, gB]⟩ [] 5
    rfl rfl).1

/-! ## Claim C9: the wrapped paint draws no glyphs -/

/-- Claim C9: the wrapped paint never emits a glyph or emoji draw
primitive — every trace entry is a `paint_underline` call — yet it
performs one `bounding_box` query per glyph of every run, so on `lineAB`
under the failing-metrics context it aborts with the metrics error even
though no glyph would have been drawn (its trace is empty). -/
theorem C9_wrapped_no_glyph_draws :
    (∀ (self : Line) (o : Point) (vb : Bounds) (lh : ℚ) (bs : List ShapedBoundary)
      (cx : WindowContext),
      ∀ c ∈ (self.paint_wrapped o vb lh bs cx).1.trace, c.isUnderline = true) ∧
    (∀ (self : Line) (o : Point) (vb : Bounds) (lh : ℚ) (bs : List ShapedBoundary)
      (cx : WindowContext), cx.ok →
      (self.paint_wrapped o vb lh bs cx).1.queries =
        (self.layout.runs.map (fun r => r.glyphs.map fun _ => r.font_id)).flatten) ∧
    (lineAB.paint_wrapped ⟨0, 0⟩ bigB 12 [] badCtx).2 = some 5 ∧
    (lineAB.paint_wrapped ⟨0, 0⟩ bigB 12 [] badCtx).1.trace = [] := by
  refine ⟨fun self o vb lh bs cx c hc => (paint_wrapped_trace self o vb lh bs cx c hc).1,
    paint_wrapped_queries, ?_, ?_⟩ <;>
    norm_num [Line.paint_wrapped, paintWrappedRuns, paintWrappedGlyphs, wrappedGlyphStep,
      wrappedDecoStep, handleBoundary, updateDecorationWrapped, emitW, badCtx, lineAB,
      layout2, gA, gB, black, Point.add_def]

/-- Witness for C9: the per-glyph query log of the wrapped paint of
`lineAB` under the non-failing context. -/
theorem C9_wrapped_no_glyph_draws_witness :
    (lineAB.paint_wrapped ⟨0, 0⟩ bigB 12 [] okCtx).1.queries = [7, 7] := by
  have h := C9_wrapped_no_glyph_draws.2.1 lineAB ⟨0, 0⟩ bigB 12 [] okCtx okCtx_ok
  rw [h]
  norm_num [lineAB, layout2, gA, gB]
  decide

/-! ## Claim C2: right-edge early exit -/

/-- The inner glyph loop breaks, emitting nothing and leaving the state
untouched, as soon as the head glyph's draw origin passes the visible
window's right edge. -/
theorem paintGlyphs_break (self : Line) (cx : WindowContext) (origin bo : Point)
    (vb : Bounds) (fid : ℕ) (w : ℚ) (st : PaintState) (g : Glyph) (gs : List Glyph)
    (h : (origin + bo + g.position).x > vb.upper_right.x) :
    paintGlyphs self cx origin bo vb fid w st (g :: gs) = (st, none) := by
  simp only [paintGlyphs]
  rw [if_pos h]

/-- When every glyph of the remaining runs lies past the visible window's
right edge, the run loop only performs the per-run `bounding_box` queries:
no draw call is emitted and the decoration state is unchanged. -/
theorem paintRuns_clipped (self : Line) (cx : WindowContext) (origin bo : Point)
    (vb : Bounds) :
    ∀ (rs : List ShapedRun) (st : PaintState),
      (∀ r ∈ rs, ∀ g ∈ r.glyphs, (origin + bo + g.position).x > vb.upper_right.x) →
      (∀ f s, ∃ sz, cx.bounding_box f s = Except.ok sz) →
      paintRuns self cx origin bo vb st rs =
        ({ st with queries := st.queries ++ rs.map (fun r => r.font_id) }, none)
  | [], st, _, _ => by simp [paintRuns]
  | r :: rs, st, hclip, hbb => by
    obtain ⟨sz, hsz⟩ := hbb r.font_id self.layout.font_size
    simp only [paintRuns, hsz]
    have hg : paintGlyphs self cx origin bo vb r.font_id sz.width
        { st with queries := st.queries ++ [r.font_id] } r.glyphs =
        ({ st with queries := st.queries ++ [r.font_id] }, none) := by
      cases hgl : r.glyphs with
      | nil => rfl
      | cons g gs =>
        exact paintGlyphs_break self cx origin bo vb r.font_id sz.width _ g gs
          (hclip r (by simp) g (by rw [hgl]; simp))
    simp only [hg]
    rw [paintRuns_clipped self cx origin bo vb rs _
      (fun r' hr' => hclip r' (List.mem_cons_of_mem _ hr')) hbb]
    simp

/-- After a successful run loop that leaves an underline active,
`Line::paint` flushes it exactly once, from its recorded start to the
line's right edge. -/
theorem paint_trailing_flush (self : Line) (cx : WindowContext) (bounds vb : Bounds)
    (lh : ℚ) (st : PaintState) (pu : Point × UnderlineStyle)
    (hpr : paintRuns self cx bounds.origin
      ⟨0, (lh - self.layout.ascent - self.layout.descent) / 2 + self.layout.ascent⟩ vb
      { style_runs := self.decoration_runs, run_end := 0, color := black,
        current_underline := none, queries := [], trace := [] }
      self.layout.runs = (st, none))
    (hcu : st.current_underline = some pu)
    (hd : cx.draw_err
      (.underline pu.1 (bounds.origin.x + self.layout.width - pu.1.x) pu.2) = none) :
    self.paint bounds vb lh cx =
      ({ st with
          current_underline := none
          trace := st.trace ++
            [.underline pu.1 (bounds.origin.x + self.layout.width - pu.1.x) pu.2] },
       none) := by
  simp only [Line.paint, hpr, hcu]
  rw [emit_ok cx _ _ hd]

/-- Claim C2: once a glyph's draw-origin x exceeds the visible window's
right edge the glyph loop stops, emitting nothing further; since glyphs of
later runs are also past the edge (x-ordering), the remaining runs emit no
glyph, emoji or per-glyph underline call either (only their `bounding_box`
queries are still made); and the trailing flush of a still-active
underline still fires exactly once after the loop. -/
theorem C2_right_edge_cutoff (self : Line) (cx : WindowContext)
    (origin bo : Point) (vb : Bounds) (fid : ℕ) (w : ℚ) :
    (∀ (st : PaintState) (g : Glyph) (gs : List Glyph),
      (origin + bo + g.position).x > vb.upper_right.x →
      paintGlyphs self cx origin bo vb fid w st (g :: gs) = (st, none)) ∧
    (∀ (rs : List ShapedRun) (st : PaintState),
      (∀ r ∈ rs, ∀ g ∈ r.glyphs, (origin + bo + g.position).x > vb.upper_right.x) →
      (∀ f s, ∃ sz, cx.bounding_box f s = Except.ok sz) →
      paintRuns self cx origin bo vb st rs =
        ({ st with queries := st.queries ++ rs.map (fun r => r.font_id) }, none)) ∧
    (∀ (bounds vb' : Bounds) (lh : ℚ) (st : PaintState) (pu : Point × UnderlineStyle),
      paintRuns self cx bounds.origin
        ⟨0, (lh - self.layout.ascent - self.layout.descent) / 2 + self.layout.ascent⟩ vb'
        { style_runs := self.decoration_runs, run_end := 0, color := black,
          current_underline := none, queries := [], trace := [] }
        self.layout.runs = (st, none) →
      st.current_underline = some pu →
      cx.draw_err
        (.underline pu.1 (bounds.origin.x + self.layout.width - pu.1.x) pu.2) = none →
      self.paint bounds vb' lh cx =
        ({ st with
            current_underline := none
            trace := st.trace ++
              [.underline pu.1 (bounds.origin.x + self.layout.width - pu.1.x) pu.2] },
         none)) :=
  ⟨fun st g gs h => paintGlyphs_break self cx origin bo vb fid w st g gs h,
   fun rs st h hbb => paintRuns_clipped self cx origin bo vb rs st h hbb,
   fun bounds vb' lh st pu hpr hcu hd =>
     paint_trailing_flush self cx bounds vb' lh st pu hpr hcu hd⟩

/-- Witness for C2: the break, the clipped run loop, and the trailing
flush evaluated on concrete lines under the narrow window `narrowVB`. -/
theorem C2_right_edge_cutoff_witness :
    paintGlyphs lineAB okCtx ⟨0, 0⟩ ⟨0, 9⟩ narrowVB 7 5 C7st [gA, gB] = (C7st, none) ∧
    paintRuns lineAB okCtx ⟨0, 0⟩ ⟨0, 9⟩ narrowVB C7st lineAB.layout.runs =
      ({ C7st with queries := [7] }, none) ∧
    lineScB.paint bigB bigB 12 okCtx =
      (⟨[], 2, red, none, [7],
        [.glyph ⟨0, 9⟩ 7 0 10 red, .glyph ⟨1, 9⟩ 7 1 10 red,
         .underline ⟨0, 2559 / 250⟩ 2 ⟨some red, 1, false⟩]⟩, none) := by
  have h := C2_right_edge_cutoff lineAB okCtx ⟨0, 0⟩ ⟨0, 9⟩ narrowVB 7 5
  have hpr : paintRuns lineScB okCtx bigB.origin
      ⟨0, (12 - lineScB.layout.ascent - lineScB.layout.descent) / 2 +
        lineScB.layout.ascent⟩ bigB
      { style_runs := lineScB.decoration_runs, run_end := 0, color := black,
        current_underline := none, queries := [], trace := [] }
      lineScB.layout.runs =
      (⟨[], 2, red, some (⟨0, 2559 / 250⟩, ⟨some red, 1, false⟩), [7],
        [.glyph ⟨0, 9⟩ 7 0 10 red, .glyph ⟨1, 9⟩ 7 1 10 red]⟩, none) := by
    norm_num [paintRuns, paintGlyphs, updateDecoration, emit, okCtx, lineScB, layout2,
      gA, gB, red, black, bigB, Bounds.upper_right, Point.add_def]
  refine ⟨?_, ?_, ?_⟩
  · exact h.1 C7st gA [gB] (by norm_num [Point.add_def, gA, narrowVB, Bounds.upper_right])
  · have h2 := h.2.1 lineAB.layout.runs C7st
      (by norm_num [lineAB, layout2, gA, gB, Point.add_def, narrowVB, Bounds.upper_right])
      (fun f sz => ⟨⟨5, 10⟩, rfl⟩)
    rw [h2]
    norm_num [lineAB, layout2, C7st]
  · have h3 := (C2_right_edge_cutoff lineScB okCtx ⟨0, 0⟩ ⟨0, 9⟩ narrowVB 7 5).2.2
      bigB bigB 12
      ⟨[], 2, red, some (⟨0, 2559 / 250⟩, ⟨some red, 1, false⟩), [7],
        [.glyph ⟨0, 9⟩ 7 0 10 red, .glyph ⟨1, 9⟩ 7 1 10 red]⟩
      (⟨0, 2559 / 250⟩, ⟨some red, 1, false⟩)
      (by exact hpr) rfl rfl
    rw [h3]
    norm_num [lineScB, layout2, bigB, red]

/-! ## Claim C5: wrapped rows -/

/-- Within one run, the wrapped glyph loop consumes exactly the pending
boundaries that point into the remaining glyphs (strictly ascending, all
for this run), advancing the draw-origin y by one line height per
boundary; boundaries for later runs are left pending. -/
theorem paintWrappedGlyphs_rows (self : Line) (cx : WindowContext) (o bo : Point)
    (lh : ℚ) (rix fid : ℕ) (hcx : cx.ok) :
    ∀ (gs : List Glyph) (gix : ℕ) (st : WrappedState)
      (bsCur bsRest : List ShapedBoundary),
      st.boundaries = bsCur ++ bsRest →
      (∀ b ∈ bsCur, b.run_ix = rix ∧ gix ≤ b.glyph_ix ∧ b.glyph_ix < gix + gs.length) →
      (∀ b ∈ bsRest, rix < b.run_ix) →
      bsCur.Pairwise (fun a b => a.glyph_ix < b.glyph_ix) →
      (paintWrappedGlyphs self cx o bo lh rix fid gix st gs).2 = none ∧
      (paintWrappedGlyphs self cx o bo lh rix fid gix st gs).1.boundaries = bsRest ∧
      (paintWrappedGlyphs self cx o bo lh rix fid gix st gs).1.glyph_origin.y =
        st.glyph_origin.y + (bsCur.length : ℚ) * lh
  | [], gix, st, bsCur, bsRest, hsplit, hcur, hrest, hpw => by
    cases bsCur with
    | nil => exact ⟨rfl, by simpa using hsplit, by simp [paintWrappedGlyphs]⟩
    | cons b bs' =>
      obtain ⟨-, h1, h2⟩ := hcur b (List.mem_cons_self _ _)
      simp only [List.length_nil] at h2
      omega
  | g :: gs, gix, st, bsCur, bsRest, hsplit, hcur, hrest, hpw => by
    simp only [paintWrappedGlyphs]
    rcases hstep : wrappedGlyphStep self cx o bo lh rix fid gix st g with ⟨st1, e⟩
    obtain ⟨he, -, hnm, hm⟩ := wrappedGlyphStep_ok self cx o bo lh rix fid gix hcx st g
    rw [hstep] at he hnm hm
    subst he
    simp only [hstep]
    cases bsCur with
    | nil =>
      obtain ⟨hb1, hy1⟩ := hnm (by
        intro b hb
        have hbm : b ∈ st.boundaries := List.take_subset 1 st.boundaries hb
        rw [hsplit] at hbm
        have : rix < b.run_ix := hrest b (by simpa using hbm)
        intro hmm
        omega)
      have ih := paintWrappedGlyphs_rows self cx o bo lh rix fid hcx gs (gix + 1) st1
        [] bsRest (by rw [hb1, hsplit]) (by simp) hrest List.Pairwise.nil
      refine ⟨ih.1, ih.2.1, ?_⟩
      rw [ih.2.2, hy1]
    | cons b bs' =>
      obtain ⟨hbr, hble, hblt⟩ := hcur b (List.mem_cons_self _ _)
      by_cases hbg : b.glyph_ix = gix
      · obtain ⟨hb1, hy1⟩ := hm b (bs' ++ bsRest) (by rw [hsplit]; rfl) hbr hbg
        have ih := paintWrappedGlyphs_rows self cx o bo lh rix fid hcx gs (gix + 1) st1
          bs' bsRest hb1
          (fun b' hb' => by
            obtain ⟨h1', h2', h3'⟩ := hcur b' (List.mem_cons_of_mem _ hb')
            have hpb := (List.pairwise_cons.mp hpw).1 b' hb'
            have hlen : (g :: gs).length = gs.length + 1 := List.length_cons g gs
            exact ⟨h1', by omega, by omega⟩)
          hrest (List.pairwise_cons.mp hpw).2
        refine ⟨ih.1, ih.2.1, ?_⟩
        rw [ih.2.2, hy1]
        push_cast [List.length_cons]
        ring
      · have hgt : gix < b.glyph_ix := lt_of_le_of_ne hble (Ne.symm hbg)
        obtain ⟨hb1, hy1⟩ := hnm (by
          intro b' hb'
          rw [hsplit] at hb'
          simp only [List.cons_append, List.take_succ_cons, List.take_zero,
            List.mem_singleton] at hb'
          subst hb'
          exact fun hmm => hbg hmm.2)
        have ih := paintWrappedGlyphs_rows self cx o bo lh rix fid hcx gs (gix + 1) st1
          (b :: bs') bsRest (by rw [hb1, hsplit])
          (fun b' hb' => by
            have hlen : (g :: gs).length = gs.length + 1 := List.length_cons g gs
            rcases List.mem_cons.mp hb' with rfl | hmem
            · exact ⟨hbr, hgt, by omega⟩
            · obtain ⟨h1', h2', h3'⟩ := hcur b' (List.mem_cons_of_mem _ hmem)
              have hpb := (List.pairwise_cons.mp hpw).1 b' hmem
              exact ⟨h1', by omega, by omega⟩)
          hrest hpw
        exact ⟨ih.1, ih.2.1, by rw [ih.2.2, hy1]⟩

/-- Across runs, the wrapped run loop consumes every pending boundary that
is valid for the remaining runs (ordered lexicographically), advancing the
draw-origin y by one line height per boundary. -/
theorem paintWrappedRuns_rows (self : Line) (cx : WindowContext) (o bo : Point)
    (lh : ℚ) (hcx : cx.ok) :
    ∀ (rs : List ShapedRun) (rix : ℕ) (st : WrappedState),
      (∀ b ∈ st.boundaries, rix ≤ b.run_ix ∧
        ∃ r, rs[b.run_ix - rix]? = some r ∧ b.glyph_ix < r.glyphs.length) →
      st.boundaries.Pairwise (fun a b => a.run_ix < b.run_ix ∨
        (a.run_ix = b.run_ix ∧ a.glyph_ix < b.glyph_ix)) →
      (paintWrappedRuns self cx o bo lh rix st rs).2 = none ∧
      (paintWrappedRuns self cx o bo lh rix st rs).1.boundaries = [] ∧
      (paintWrappedRuns self cx o bo lh rix st rs).1.glyph_origin.y =
        st.glyph_origin.y + (st.boundaries.length : ℚ) * lh
  | [], rix, st, hval, hpw => by
    have hnil : st.boundaries = [] := by
      cases hbnd : st.boundaries with
      | nil => rfl
      | cons b bs =>
        obtain ⟨-, r, hr, -⟩ := hval b (by rw [hbnd]; exact List.mem_cons_self _ _)
        rw [List.getElem?_nil] at hr
        cases hr
    exact ⟨rfl, by simp [paintWrappedRuns, hnil], by simp [paintWrappedRuns, hnil]⟩
  | r :: rs', rix, st, hval, hpw => by
    simp only [paintWrappedRuns]
    have hsplit : st.boundaries =
        st.boundaries.takeWhile (fun b => b.run_ix == rix) ++
          st.boundaries.dropWhile (fun b => b.run_ix == rix) :=
      (List.takeWhile_append_dropWhile _ st.boundaries).symm
    have hcur : ∀ b ∈ st.boundaries.takeWhile (fun b => b.run_ix == rix),
        b.run_ix = rix ∧ 0 ≤ b.glyph_ix ∧ b.glyph_ix < 0 + r.glyphs.length := by
      intro b hb
      have hpeq : b.run_ix = rix := by simpa using List.mem_takeWhile_imp hb
      have hbm : b ∈ st.boundaries := (List.takeWhile_sublist _).subset hb
      obtain ⟨-, r', hr', hlt⟩ := hval b hbm
      rw [hpeq, Nat.sub_self, List.getElem?_cons_zero] at hr'
      have hrr : r' = r := by
        injection hr' with h
        exact h.symm
      subst hrr
      exact ⟨hpeq, Nat.zero_le _, by omega⟩
    have hrest : ∀ b ∈ st.boundaries.dropWhile (fun b => b.run_ix == rix),
        rix < b.run_ix := by
      intro b hb
      have hbm : b ∈ st.boundaries := (List.dropWhile_sublist _).subset hb
      have hge : rix ≤ b.run_ix := (hval b hbm).1
      cases hdw : st.boundaries.dropWhile (fun b => b.run_ix == rix) with
      | nil =>
        rw [hdw] at hb
        cases hb
      | cons b0 bs0 =>
        have hfalse : (fun b => b.run_ix == rix) b0 = false := by
          have t := List.head?_dropWhile_not (fun b => b.run_ix == rix) st.boundaries
          rw [hdw] at t
          exact t
        have hb0 : b0.run_ix ≠ rix := by simpa using hfalse
        have hb0m : b0 ∈ st.boundaries := (List.dropWhile_sublist _).subset
          (by rw [hdw]; exact List.mem_cons_self _ _)
        have hb0ge : rix ≤ b0.run_ix := (hval b0 hb0m).1
        rw [hdw] at hb
        rcases List.mem_cons.mp hb with rfl | hmem
        · omega
        · have hpw' := List.Pairwise.sublist (List.dropWhile_sublist
            (fun b => b.run_ix == rix)) hpw
          rw [hdw] at hpw'
          rcases (List.pairwise_cons.mp hpw').1 b hmem with h | ⟨heq, -⟩ <;> omega
    have hpwcur : (st.boundaries.takeWhile (fun b => b.run_ix == rix)).Pairwise
        (fun a b => a.glyph_ix < b.glyph_ix) := by
      have hpw' := List.Pairwise.sublist (List.takeWhile_sublist
        (fun b => b.run_ix == rix)) hpw
      refine List.Pairwise.imp_of_mem ?_ hpw'
      intro a b ha hb hr
      have ha' : a.run_ix = rix := by simpa using List.mem_takeWhile_imp ha
      have hb' : b.run_ix = rix := by simpa using List.mem_takeWhile_imp hb
      rcases hr with h | ⟨-, h⟩
      · omega
      · exact h
    rcases hpg : paintWrappedGlyphs self cx o bo lh rix r.font_id 0 st r.glyphs with
      ⟨st1, e⟩
    have hg := paintWrappedGlyphs_rows self cx o bo lh rix r.font_id hcx r.glyphs 0 st
      (st.boundaries.takeWhile (fun b => b.run_ix == rix))
      (st.boundaries.dropWhile (fun b => b.run_ix == rix)) hsplit hcur hrest hpwcur
    rw [hpg] at hg
    obtain ⟨he, hb1, hy1⟩ := hg
    subst he
    simp only [hpg]
    have ih := paintWrappedRuns_rows self cx o bo lh hcx rs' (rix + 1) st1
      (by
        intro b hb
        rw [hb1] at hb
        have hbm : b ∈ st.boundaries := (List.dropWhile_sublist _).subset hb
        obtain ⟨hge, r', hr', hlt⟩ := hval b hbm
        have hgt : rix < b.run_ix := hrest b hb
        refine ⟨by omega, r', ?_, hlt⟩
        have hidx : b.run_ix - rix = (b.run_ix - (rix + 1)) + 1 := by omega
        rw [hidx, List.getElem?_cons_succ] at hr'
        exact hr')
      (by
        rw [hb1]
        exact List.Pairwise.sublist (List.dropWhile_sublist _) hpw)
    refine ⟨ih.1, ih.2.1, ?_⟩
    rw [ih.2.2, hy1, hb1]
    have hlen : st.boundaries.length =
        (st.boundaries.takeWhile (fun b => b.run_ix == rix)).length +
          (st.boundaries.dropWhile (fun b => b.run_ix == rix)).length := by
      conv_lhs => rw [hsplit]
      exact List.length_append _ _
    rw [hlen]
    push_cast
    ring

/-- Claim C5: in the wrapped paint, with N pending boundaries (each naming
an existing glyph coordinate, in strictly ascending lexicographic order)
and a non-failing context, all N boundaries are consumed and the final
draw-origin y is the destination origin's y plus N line heights — N resets
produce exactly N+1 visual rows, row k sitting at vertical offset
k × line_height. At a matching glyph the boundary handling flushes any
active underline at the current x, resets the draw-origin x to the
destination's left edge, advances the draw-origin y by one line height,
and advances the boundary cursor. -/
theorem C5_wrapped_rows (self : Line) (origin : Point) (vb : Bounds) (lh : ℚ)
    (bs : List ShapedBoundary) (cx : WindowContext) (hcx : cx.ok)
    (hvalid : ∀ b ∈ bs, ∃ r, self.layout.runs[b.run_ix]? = some r ∧
      b.glyph_ix < r.glyphs.length)
    (hsorted : bs.Pairwise (fun a b => a.run_ix < b.run_ix ∨
      (a.run_ix = b.run_ix ∧ a.glyph_ix < b.glyph_ix))) :
    (self.paint_wrapped origin vb lh bs cx).2 = none ∧
    (self.paint_wrapped origin vb lh bs cx).1.boundaries = [] ∧
    (self.paint_wrapped origin vb lh bs cx).1.glyph_origin.y =
      origin.y + (bs.length : ℚ) * lh ∧
    (∀ (rix gix : ℕ) (st : WrappedState) (b : ShapedBoundary)
      (bs' : List ShapedBoundary), st.boundaries = b :: bs' → b.run_ix = rix →
      b.glyph_ix = gix → st.current_underline = none →
      handleBoundary cx origin lh rix gix st =
        ({ st with
            boundaries := bs'
            glyph_origin := ⟨origin.x, st.glyph_origin.y + lh⟩ }, none)) ∧
    (∀ (rix gix : ℕ) (st : WrappedState) (b : ShapedBoundary)
      (bs' : List ShapedBoundary) (pu : Point × UnderlineStyle),
      st.boundaries = b :: bs' → b.run_ix = rix → b.glyph_ix = gix →
      st.current_underline = some pu →
      handleBoundary cx origin lh rix gix st =
        ({ st with
            boundaries := bs'
            current_underline := none
            glyph_origin := ⟨origin.x, st.glyph_origin.y + lh⟩
            trace := st.trace ++
              [.underline pu.1 (st.glyph_origin.x - pu.1.x) pu.2] }, none)) := by
  have hmain : (self.paint_wrapped origin vb lh bs cx).2 = none ∧
      (self.paint_wrapped origin vb lh bs cx).1.boundaries = [] ∧
      (self.paint_wrapped origin vb lh bs cx).1.glyph_origin.y =
        origin.y + (bs.length : ℚ) * lh := by
    simp only [Line.paint_wrapped]
    rcases hpr : paintWrappedRuns self cx origin
        ⟨0, (lh - self.layout.ascent - self.layout.descent) / 2 + self.layout.ascent⟩ lh 0
        { boundaries := bs, color_runs := self.decoration_runs, style_run_end := 0,
          color := black, current_underline := none, glyph_origin := origin,
          prev_position := 0, queries := [], trace := [] } self.layout.runs with
      ⟨st, e⟩
    have hrows := paintWrappedRuns_rows self cx origin
      ⟨0, (lh - self.layout.ascent - self.layout.descent) / 2 + self.layout.ascent⟩ lh hcx
      self.layout.runs 0
      { boundaries := bs, color_runs := self.decoration_runs, style_run_end := 0,
        color := black, current_underline := none, glyph_origin := origin,
        prev_position := 0, queries := [], trace := [] }
      (by
        intro b hb
        refine ⟨Nat.zero_le _, ?_⟩
        rw [Nat.sub_zero]
        exact hvalid b hb)
      hsorted
    rw [hpr] at hrows
    obtain ⟨he, hb1, hy1⟩ := hrows
    subst he
    rcases st with ⟨bnd, crs, sre, col, cu, go, pp, qs, tr⟩
    cases cu with
    | none => exact ⟨rfl, hb1, hy1⟩
    | some pu =>
      show (emitW cx ⟨bnd, crs, sre, col, none, go, pp, qs, tr⟩
          (.underline pu.1 (go.x + self.layout.width - pp - pu.1.x) pu.2)).2 = none ∧
        (emitW cx ⟨bnd, crs, sre, col, none, go, pp, qs, tr⟩
          (.underline pu.1 (go.x + self.layout.width - pp - pu.1.x) pu.2)).1.boundaries
          = [] ∧
        (emitW cx ⟨bnd, crs, sre, col, none, go, pp, qs, tr⟩
          (.underline pu.1
            (go.x + self.layout.width - pp - pu.1.x) pu.2)).1.glyph_origin.y =
          origin.y + (bs.length : ℚ) * lh
      rw [emitW_ok cx _ _ (hcx.1 _)]
      exact ⟨rfl, hb1, hy1⟩
  refine ⟨hmain.1, hmain.2.1, hmain.2.2, ?_, ?_⟩
  · intro rix gix st b bs' hbnd hbr hbg hcu
    rcases handleBoundary_cases cx origin lh rix gix st with
      ⟨hno, -⟩ | ⟨b2, bs2, hb2, hbr2, hbg2, hcase⟩
    · exact absurd ⟨hbr, hbg⟩ (hno b (by rw [hbnd]; simp))
    · injection hbnd.symm.trans hb2 with e1 e2
      subst e1
      subst e2
      rcases hcase with ⟨-, heq⟩ | ⟨pu, e, hcu2, -, -⟩ | ⟨pu, hcu2, -, -⟩
      · exact heq
      · rw [hcu] at hcu2
        cases hcu2
      · rw [hcu] at hcu2
        cases hcu2
  · intro rix gix st b bs' pu hbnd hbr hbg hcu
    rcases handleBoundary_cases cx origin lh rix gix st with
      ⟨hno, -⟩ | ⟨b2, bs2, hb2, hbr2, hbg2, hcase⟩
    · exact absurd ⟨hbr, hbg⟩ (hno b (by rw [hbnd]; simp))
    · injection hbnd.symm.trans hb2 with e1 e2
      subst e1
      subst e2
      rcases hcase with ⟨hcu2, -⟩ | ⟨pu2, e, hcu2, he2, -⟩ | ⟨pu2, hcu2, he2, heq⟩
      · rw [hcu] at hcu2
        cases hcu2
      · rw [hcx.1 _] at he2
        cases he2
      · rw [hcu] at hcu2
        injection hcu2 with e3
        subst e3
        exact heq

/-- Witness for C5: wrapping `lineAB` at the single boundary (0, 1)
produces a fully consumed cursor and a final draw origin one line height
down. -/
theorem C5_wrapped_rows_witness :
    (lineAB.paint_wrapped ⟨0, 0⟩ bigB 12 [⟨0, 1⟩] okCtx).2 = none ∧
    (lineAB.paint_wrapped ⟨0, 0⟩ bigB 12 [⟨0, 1⟩] okCtx).1.boundaries = [] ∧
    (lineAB.paint_wrapped ⟨0, 0⟩ bigB 12 [⟨0, 1⟩] okCtx).1.glyph_origin.y = 12 := by
  have h := C5_wrapped_rows lineAB ⟨0, 0⟩ bigB 12 [⟨0, 1⟩] okCtx okCtx_ok
    (by
      intro b hb
      simp only [List.mem_singleton] at hb
      subst hb
      exact ⟨⟨7, [gA, gB]⟩, by decide, by decide⟩)
    (by simp)
  refine ⟨h.1, h.2.1, ?_⟩
  rw [h.2.2.1]
  norm_num

end Gpui
